import Mathlib

/-!
Verification development for the VLC-Chat host software: a shallow embedding of
the Conversation State Store (`history.py`) and the Link Protocol Engine
(`vlc_interface.py`), with theorems settling the specification claims.

Conventions of the embedding:
* Python `datetime` instants are modelled by the `DateTime` structure of UTC
  calendar components (the store normalizes every timestamp to UTC); Python
  instant equality and ordering on such values coincide with component
  equality and lexicographic ordering.
* Python strings are modelled by `List Char` in the codec layer and `String`
  at the API surface (ASCII data throughout, per the protocol).
* Mutable objects are modelled by explicit state passing; a Python method that
  can raise returns `Except String α × State`, where the returned state is the
  object state after the call, including the partial mutations that precede a
  raise.
* Object identity of `MessageRecord` values (Python `is`) is modelled by a
  record id `rid` drawn from a counter owned by the store.
* Persistence is modelled at the parsed-JSON level: the history file holds a
  list of conversation payloads (`ConvPayload`), and `save`/`reload` write and
  read that structure.
-/

namespace VLCChat

/-- A UTC instant at microsecond precision, as Python `datetime` components
(`astimezone(timezone.utc)` having been applied by the store on every path). -/
structure DateTime where
  year : Nat
  month : Nat
  day : Nat
  hour : Nat
  minute : Nat
  second : Nat
  microsecond : Nat
deriving DecidableEq, Repr

/-- Python leap-year rule (`calendar.isleap`, used by `datetime` validation). -/
def isLeapYear (y : Nat) : Bool :=
  y % 4 = 0 && (y % 100 ≠ 0 || y % 400 = 0)

/-- Days in a month, as validated by Python `datetime`. -/
def daysInMonth (y m : Nat) : Nat :=
  if m = 2 then (if isLeapYear y then 29 else 28)
  else if m = 4 ∨ m = 6 ∨ m = 9 ∨ m = 11 then 30
  else 31

/-- The component ranges Python `datetime` admits (year 1..9999 etc.). -/
def DateTime.Valid (dt : DateTime) : Prop :=
  1 ≤ dt.year ∧ dt.year ≤ 9999 ∧
  1 ≤ dt.month ∧ dt.month ≤ 12 ∧
  1 ≤ dt.day ∧ dt.day ≤ daysInMonth dt.year dt.month ∧
  dt.hour ≤ 23 ∧ dt.minute ≤ 59 ∧ dt.second ≤ 59 ∧ dt.microsecond ≤ 999999

instance (dt : DateTime) : Decidable dt.Valid := by
  unfold DateTime.Valid; infer_instance

/-- Python `datetime` ordering on equal-timezone (UTC) values: instants
compare by calendar components, lexicographically. -/
def DateTime.lt (a b : DateTime) : Prop :=
  Prod.Lex (· < ·) (Prod.Lex (· < ·) (Prod.Lex (· < ·) (Prod.Lex (· < ·)
    (Prod.Lex (· < ·) (Prod.Lex (· < ·) (· < ·))))))
    (a.year, a.month, a.day, a.hour, a.minute, a.second, a.microsecond)
    (b.year, b.month, b.day, b.hour, b.minute, b.second, b.microsecond)

instance (a b : DateTime) : Decidable (DateTime.lt a b) := by
  unfold DateTime.lt; infer_instance

/-! ### Decimal digit printing and reading (for ISO-8601 timestamps) -/

/-- The ASCII digit character for `d < 10`. -/
def digitChar (d : Nat) : Char := Char.ofNat (48 + d)

/-- Zero-padded fixed-width decimal rendering, most significant digit first
(`n` must satisfy `n < 10^w` for faithful rendering). -/
def padDigits : Nat → Nat → List Char
  | 0, _ => []
  | w + 1, n => digitChar (n / 10 ^ w) :: padDigits w (n % 10 ^ w)

/-- Read exactly `w` decimal digits, returning their value and the rest. -/
def readDigits : Nat → Nat → List Char → Option (Nat × List Char)
  | acc, 0, cs => some (acc, cs)
  | _, _ + 1, [] => none
  | acc, w + 1, c :: cs =>
    if 48 ≤ c.toNat ∧ c.toNat ≤ 57 then
      readDigits (acc * 10 + (c.toNat - 48)) w cs
    else none

theorem digitChar_toNat (d : Nat) (hd : d < 10) : (digitChar d).toNat = 48 + d := by
  interval_cases d <;> decide

theorem readDigits_padDigits (w : Nat) :
    ∀ (n acc : Nat) (rest : List Char), n < 10 ^ w →
      readDigits acc w (padDigits w n ++ rest) = some (acc * 10 ^ w + n, rest) := by
  induction w with
  | zero =>
    intro n acc rest hn
    interval_cases n
    simp [padDigits, readDigits]
  | succ w ih =>
    intro n acc rest hn
    have hdiv : n / 10 ^ w < 10 := Nat.div_lt_of_lt_mul (by rw [← pow_succ]; exact hn)
    have hmod : n % 10 ^ w < 10 ^ w := Nat.mod_lt _ (pow_pos (by norm_num) w)
    have htn := digitChar_toNat _ hdiv
    have hcond : 48 ≤ (digitChar (n / 10 ^ w)).toNat ∧ (digitChar (n / 10 ^ w)).toNat ≤ 57 := by
      rw [htn]; exact ⟨Nat.le_add_right 48 _, by omega⟩
    rw [padDigits, List.cons_append, readDigits, if_pos hcond, htn]
    have h48 : 48 + n / 10 ^ w - 48 = n / 10 ^ w := by omega
    rw [h48, ih _ _ rest hmod]
    congr 2
    conv_rhs => rw [← Nat.div_add_mod n (10 ^ w)]
    ring

/-- Every character printed by `padDigits` is an ASCII digit. -/
theorem padDigits_digits (w : Nat) :
    ∀ n, n < 10 ^ w → ∀ c ∈ padDigits w n, 48 ≤ c.toNat ∧ c.toNat ≤ 57 := by
  induction w with
  | zero => intro n _ c hc; simp [padDigits] at hc
  | succ w ih =>
    intro n hn c hc
    have hdiv : n / 10 ^ w < 10 := Nat.div_lt_of_lt_mul (by rw [← pow_succ]; exact hn)
    have hmod : n % 10 ^ w < 10 ^ w := Nat.mod_lt _ (pow_pos (by norm_num) w)
    simp only [padDigits, List.mem_cons] at hc
    rcases hc with hc | hc
    · subst hc
      rw [digitChar_toNat _ hdiv]
      exact ⟨Nat.le_add_right 48 _, by omega⟩
    · exact ih _ hmod c hc

/-! ### ISO-8601 timestamp formatting and parsing (`history.py`:
`_format_timestamp`, `_parse_timestamp`, and the subset of Python
`datetime.fromisoformat` those two exercise on store-written strings) -/

/-- Python `str.strip` whitespace test (ASCII subset: space, TAB, LF, CR,
VT, FF, identified by code point). -/
def isPyWhitespace (c : Char) : Bool :=
  c.toNat = 32 || c.toNat = 9 || c.toNat = 10 || c.toNat = 13 ||
  c.toNat = 11 || c.toNat = 12

/-- Python `str.strip`. -/
def stripChars (cs : List Char) : List Char :=
  ((cs.dropWhile isPyWhitespace).reverse.dropWhile isPyWhitespace).reverse

/-- The body of Python `dt.isoformat()` for a UTC datetime, without the
offset suffix: `YYYY-MM-DDTHH:MM:SS[.ffffff]`. -/
def isoCoreChars (dt : DateTime) : List Char :=
  padDigits 4 dt.year ++ '-' :: padDigits 2 dt.month ++ '-' :: padDigits 2 dt.day ++
  'T' :: padDigits 2 dt.hour ++ ':' :: padDigits 2 dt.minute ++ ':' :: padDigits 2 dt.second ++
  (if dt.microsecond = 0 then [] else '.' :: padDigits 6 dt.microsecond)

/-- `_format_timestamp`: UTC `isoformat()` with the `+00:00` offset rewritten
to a literal `Z` suffix. -/
def formatTimestampChars (dt : DateTime) : List Char :=
  isoCoreChars dt ++ ['Z']

/-- `_format_timestamp` at the `String` surface. -/
def formatTimestamp (dt : DateTime) : String :=
  ⟨formatTimestampChars dt⟩

/-- Consume one expected literal character. -/
def expectChar (c : Char) : List Char → Option (List Char)
  | c' :: rest => if c' = c then some rest else none
  | [] => none

/-- Fractional-second part as produced by `isoformat()`: either absent or a
dot followed by six digits (the only fraction shape the store ever writes). -/
def parseFraction (cs : List Char) : Option (Nat × List Char) :=
  if cs.head? = some '.' then readDigits 0 6 cs.tail else some (0, cs)

/-- `datetime` construction: validates the component ranges. -/
def mkValidDateTime (y mo d h mi s us : Nat) : Option DateTime :=
  if (DateTime.mk y mo d h mi s us).Valid then some (DateTime.mk y mo d h mi s us)
  else none

/-- Python `datetime.fromisoformat` on the strings `_parse_timestamp`
normalizes from store-written data, composed with the
`replace(tzinfo=utc)`/`astimezone(utc)` normalization that follows it
(both are the identity on the resulting components): date, optional time
with optional 6-digit fraction, and either no offset (naive, taken as UTC)
or the literal `+00:00` offset. Offsets other than `+00:00` are outside the
modelled subset (the store only ever writes `Z`). -/
def pyFromIso (cs : List Char) : Option DateTime := do
  let (y, cs) ← readDigits 0 4 cs
  let cs ← expectChar '-' cs
  let (mo, cs) ← readDigits 0 2 cs
  let cs ← expectChar '-' cs
  let (d, cs) ← readDigits 0 2 cs
  if cs = [] then mkValidDateTime y mo d 0 0 0 0
  else do
    let cs := cs.tail
    let (h, cs) ← readDigits 0 2 cs
    let cs ← expectChar ':' cs
    let (mi, cs) ← readDigits 0 2 cs
    let cs ← expectChar ':' cs
    let (s, cs) ← readDigits 0 2 cs
    let (us, cs) ← parseFraction cs
    if cs = [] then mkValidDateTime y mo d h mi s us
    else if cs = ['+', '0', '0', ':', '0', '0'] then mkValidDateTime y mo d h mi s us
    else none

/-- `_parse_timestamp`: strip, rewrite a trailing `Z` to `+00:00`, parse,
normalize to UTC. -/
def parseTimestampChars (value : List Char) : Except String DateTime :=
  let stripped := stripChars value
  let normalized :=
    if stripped.getLast? = some 'Z'
    then stripped.dropLast ++ ['+', '0', '0', ':', '0', '0']
    else stripped
  match pyFromIso normalized with
  | some dt => .ok dt
  | none => .error "Invalid ISO 8601 timestamp"

/-- `_parse_timestamp` at the `String` surface. -/
def parseTimestamp (value : String) : Except String DateTime :=
  parseTimestampChars value.data

/-! ### Round-trip of the timestamp codec -/

theorem readDigits_zero_padDigits {w n : Nat} (rest : List Char) (hn : n < 10 ^ w) :
    readDigits 0 w (padDigits w n ++ rest) = some (n, rest) := by
  rw [readDigits_padDigits w n 0 rest hn, Nat.zero_mul, Nat.zero_add]

theorem dropWhileAll {p : Char → Bool} {l : List Char} (h : ∀ c ∈ l, p c = false) :
    l.dropWhile p = l := by
  cases l with
  | nil => rfl
  | cons c cs => simp [List.dropWhile, h c (List.mem_cons_self c cs)]

theorem stripChars_of_no_ws {l : List Char} (h : ∀ c ∈ l, isPyWhitespace c = false) :
    stripChars l = l := by
  unfold stripChars
  rw [dropWhileAll h, dropWhileAll, List.reverse_reverse]
  intro c hc
  exact h c (List.mem_reverse.mp hc)

theorem digit_not_ws {c : Char} (h48 : 48 ≤ c.toNat) (h57 : c.toNat ≤ 57) :
    isPyWhitespace c = false := by
  simp only [isPyWhitespace, Bool.or_eq_false_iff, decide_eq_false_iff_not]
  omega

/-- The width bounds `DateTime.Valid` implies for each printed component. -/
theorem DateTime.valid_bounds {dt : DateTime} (hv : dt.Valid) :
    dt.year < 10 ^ 4 ∧ dt.month < 10 ^ 2 ∧ dt.day < 10 ^ 2 ∧ dt.hour < 10 ^ 2 ∧
    dt.minute < 10 ^ 2 ∧ dt.second < 10 ^ 2 ∧ dt.microsecond < 10 ^ 6 := by
  obtain ⟨h1, h2, h3, h4, h5, h6, h7, h8, h9, h10⟩ := hv
  have hdm : daysInMonth dt.year dt.month ≤ 31 := by
    unfold daysInMonth
    split
    · split <;> norm_num
    · split <;> norm_num
  refine ⟨?_, ?_, ?_, ?_, ?_, ?_, ?_⟩ <;> norm_num <;> omega

theorem formatTimestampChars_no_ws (dt : DateTime) (hv : dt.Valid) :
    ∀ c ∈ formatTimestampChars dt, isPyWhitespace c = false := by
  obtain ⟨hy, hmo, hd, hh, hmi, hs, hus⟩ := DateTime.valid_bounds hv
  intro c hc
  simp only [formatTimestampChars, isoCoreChars, List.mem_append, List.mem_cons,
    List.append_assoc, List.cons_append, List.mem_singleton] at hc
  rcases hc with hc | hc | hc | hc | hc | hc | hc | hc | hc | hc | hc | hc | hc
  · exact digit_not_ws (padDigits_digits 4 _ hy c hc).1 (padDigits_digits 4 _ hy c hc).2
  · subst hc; decide
  · exact digit_not_ws (padDigits_digits 2 _ hmo c hc).1 (padDigits_digits 2 _ hmo c hc).2
  · subst hc; decide
  · exact digit_not_ws (padDigits_digits 2 _ hd c hc).1 (padDigits_digits 2 _ hd c hc).2
  · subst hc; decide
  · exact digit_not_ws (padDigits_digits 2 _ hh c hc).1 (padDigits_digits 2 _ hh c hc).2
  · subst hc; decide
  · exact digit_not_ws (padDigits_digits 2 _ hmi c hc).1 (padDigits_digits 2 _ hmi c hc).2
  · subst hc; decide
  · exact digit_not_ws (padDigits_digits 2 _ hs c hc).1 (padDigits_digits 2 _ hs c hc).2
  · split at hc
    · simp at hc
    · simp only [List.mem_cons] at hc
      rcases hc with hc | hc
      · subst hc; decide
      · exact digit_not_ws (padDigits_digits 6 _ hus c hc).1 (padDigits_digits 6 _ hus c hc).2
  · rcases hc with hc | hc
    · subst hc; decide
    · simp at hc

theorem expectChar_cons (c : Char) (rest : List Char) :
    expectChar c (c :: rest) = some rest := by
  simp [expectChar]

/-- Lossless round-trip of the timestamp codec at microsecond precision:
parsing a formatted valid UTC instant recovers it exactly. -/
theorem parseTimestampChars_format (dt : DateTime) (hv : dt.Valid) :
    parseTimestampChars (formatTimestampChars dt) = .ok dt := by
  obtain ⟨hy, hmo, hd, hh, hmi, hs, hus⟩ := DateTime.valid_bounds hv
  unfold parseTimestampChars
  rw [stripChars_of_no_ws (formatTimestampChars_no_ws _ hv)]
  unfold formatTimestampChars
  simp only [List.getLast?_concat, reduceIte, List.dropLast_concat]
  unfold isoCoreChars
  simp only [List.append_assoc, List.cons_append]
  unfold pyFromIso
  rw [readDigits_zero_padDigits _ hy]
  simp only [Option.bind_eq_bind, Option.some_bind, expectChar_cons]
  rw [readDigits_zero_padDigits _ hmo]
  simp only [Option.some_bind, expectChar_cons]
  rw [readDigits_zero_padDigits _ hd]
  simp only [Option.some_bind]
  rw [if_neg (List.cons_ne_nil 'T' _)]
  simp only [List.tail_cons]
  rw [readDigits_zero_padDigits _ hh]
  simp only [Option.some_bind, expectChar_cons]
  rw [readDigits_zero_padDigits _ hmi]
  simp only [Option.some_bind, expectChar_cons]
  rw [readDigits_zero_padDigits _ hs]
  simp only [Option.some_bind]
  by_cases hus0 : dt.microsecond = 0
  · rw [if_pos hus0]
    simp +decide only [List.nil_append, parseFraction, List.head?_cons, ite_true,
      ite_false, Option.some_bind]
    unfold mkValidDateTime
    rw [if_pos (show DateTime.Valid _ by rw [← hus0]; exact hv)]
    rw [← hus0]
  · rw [if_neg hus0]
    simp +decide only [List.cons_append, parseFraction, List.head?_cons, List.tail_cons,
      ite_true, ite_false]
    rw [readDigits_zero_padDigits _ hus]
    simp +decide only [Option.some_bind, ite_true, ite_false]
    unfold mkValidDateTime
    rw [if_pos (show DateTime.Valid _ from hv)]

/-- The round-trip at the `String` surface. -/
theorem parseTimestamp_format (dt : DateTime) (hv : dt.Valid) :
    parseTimestamp (formatTimestamp dt) = .ok dt := by
  unfold parseTimestamp formatTimestamp
  exact parseTimestampChars_format dt hv

/-! ### Legacy timestamp synthesis (`history.py`: `_legacy_timestamp`) -/

/-- `_legacy_timestamp`: `datetime(1970, 1, 1, tzinfo=utc) + timedelta(milliseconds=count)`,
written out in components (valid while the sum stays inside January 1970,
i.e. for fewer than 31 days' worth of legacy records in one load). -/
def legacyTimestamp (count : Nat) : DateTime :=
  { year := 1970, month := 1, day := 1 + count / 86400000,
    hour := count / 3600000 % 24, minute := count / 60000 % 60,
    second := count / 1000 % 60, microsecond := count % 1000 * 1000 }

/-- Larger millisecond counters synthesize strictly later instants. -/
theorem legacyTimestamp_strictMono {c1 c2 : Nat} (h : c1 < c2) :
    (legacyTimestamp c1).lt (legacyTimestamp c2) := by
  have e1 : c1 / 3600000 / 24 = c1 / 86400000 := by rw [Nat.div_div_eq_div_mul]
  have e2 : c2 / 3600000 / 24 = c2 / 86400000 := by rw [Nat.div_div_eq_div_mul]
  have e3 : c1 / 60000 / 60 = c1 / 3600000 := by rw [Nat.div_div_eq_div_mul]
  have e4 : c2 / 60000 / 60 = c2 / 3600000 := by rw [Nat.div_div_eq_div_mul]
  have e5 : c1 / 1000 / 60 = c1 / 60000 := by rw [Nat.div_div_eq_div_mul]
  have e6 : c2 / 1000 / 60 = c2 / 60000 := by rw [Nat.div_div_eq_div_mul]
  simp only [DateTime.lt, legacyTimestamp, Prod.lex_def, lt_self_iff_false, true_and,
    false_or]
  omega

/-! ### Association-list model of Python `dict` (insertion-ordered) -/

def dictGet {κ β : Type} [DecidableEq κ] (k : κ) : List (κ × β) → Option β
  | [] => none
  | (k', v) :: rest => if k' = k then some v else dictGet k rest

def dictSet {κ β : Type} [DecidableEq κ] (k : κ) (v : β) : List (κ × β) → List (κ × β)
  | [] => [(k, v)]
  | (k', v') :: rest => if k' = k then (k, v) :: rest else (k', v') :: dictSet k v rest

def dictRemove {κ β : Type} [DecidableEq κ] (k : κ) : List (κ × β) → List (κ × β)
  | [] => []
  | (k', v') :: rest => if k' = k then rest else (k', v') :: dictRemove k rest

/-! ### Python `str.replace` (`vlc_interface.py`: `_escape_payload`,
`_sanitize_payload`) -/

/-- Python `str.replace` for a non-empty pattern `p :: ps`: scan left to
right, replace each non-overlapping occurrence by `rep`, never rescanning
the replacement. -/
def replaceAll (p : Char) (ps : List Char) (rep : List Char) : List Char → List Char
  | [] => []
  | c :: cs =>
    if c = p ∧ ps.isPrefixOf cs then rep ++ replaceAll p ps rep (cs.drop ps.length)
    else c :: replaceAll p ps rep cs
termination_by l => l.length
decreasing_by
  · simp only [List.length_cons, List.length_drop]; omega
  · simp only [List.length_cons]; omega

/-- `_escape_payload`: escape backslash, newline, carriage return, tab
(in that order of `replace` calls). -/
def escapePayload (message : List Char) : List Char :=
  replaceAll '\t' [] ['\\', 't']
    (replaceAll '\r' [] ['\\', 'r']
      (replaceAll '\n' [] ['\\', 'n']
        (replaceAll '\\' [] ['\\', '\\'] message)))

/-- `_sanitize_payload`: un-escape `\n`, `\r`, `\t` sequences, strip `\0`
marker sequences and literal NULs. (Note: no rule turns `\\\\` back into a
single backslash.) -/
def sanitizePayload (payload : List Char) : List Char :=
  replaceAll '\x00' [] []
    (replaceAll '\\' ['0'] []
      (replaceAll '\\' ['t'] ['\t']
        (replaceAll '\\' ['r'] ['\r']
          (replaceAll '\\' ['n'] ['\n'] payload))))

/-! ### Conversation State Store data model (`history.py`) -/

def ACK_TRUE : String := "true"
def ACK_FALSE : String := "false"
def ACK_OUTSTANDING : String := "outstanding"
def ACK_STATUSES : List String := [ACK_TRUE, ACK_FALSE, ACK_OUTSTANDING]

def pyStrip (s : String) : String := ⟨stripChars s.data⟩

/-- Python `str.upper` on the ASCII data this program handles. -/
def pyUpper (s : String) : String := ⟨s.data.map Char.toUpper⟩

/-- Python `str.lower` on the ASCII data this program handles. -/
def pyLower (s : String) : String := ⟨s.data.map Char.toLower⟩

/-- `_normalize_mac`: strip, reject empty, uppercase. (The `TypeError` branch
for non-string input is excluded by typing.) -/
def normalizeMac (mac : String) : Except String String :=
  let cleaned := pyStrip mac
  if cleaned = "" then .error "MAC address must not be empty."
  else .ok (pyUpper cleaned)

/-- The `Union[str, bool]` argument of `_normalize_ack_status`. -/
inductive AckInput where
  | str (s : String)
  | bool (b : Bool)
deriving DecidableEq, Repr

/-- `_normalize_ack_status` on a non-`None` argument. -/
def normalizeAckStatus : AckInput → Except String String
  | .bool b => .ok (if b then ACK_TRUE else ACK_FALSE)
  | .str v =>
    let normalized := pyLower (pyStrip v)
    let normalized := if normalized = "pending" then ACK_OUTSTANDING else normalized
    if normalized ∈ ACK_STATUSES then .ok normalized
    else .error "Invalid acknowledgement status"

/-- A `MessageRecord` object. `rid` models Python object identity (`is`):
every record created by the store carries a fresh id from the store's
counter; it is not a field of the Python dataclass. -/
structure MessageRecord where
  rid : Nat
  timestamp : DateTime
  message : String
  ack_status : Option String := none
  seq : Option Int := none
deriving DecidableEq, Repr

/-- The Python-dataclass fields of a record (identity dropped). -/
structure RecordFields where
  timestamp : DateTime
  message : String
  ack_status : Option String
  seq : Option Int
deriving DecidableEq, Repr

def MessageRecord.fields (r : MessageRecord) : RecordFields :=
  ⟨r.timestamp, r.message, r.ack_status, r.seq⟩

structure Conversation where
  mac : String
  sent_messages : List MessageRecord
  received_messages : List MessageRecord
deriving DecidableEq, Repr

/-- A persisted message entry: either the legacy bare-string form or the
object form with keys `timestamp`, `message`, optional `ack`, optional `seq`
(an `Option` field models key absence). Malformed shapes (non-string
message, missing timestamp, …) are excluded by typing; they fail loading
with validation errors not exercised by the claims. -/
structure MsgObj where
  timestamp : String
  message : String
  ack : Option String
  seq : Option Int
deriving DecidableEq, Repr

inductive MsgPayload where
  | legacy (s : String)
  | obj (o : MsgObj)
deriving DecidableEq, Repr

/-- A persisted conversation entry `{MAC, SentMessages, ReceivedMessages}`. -/
structure ConvPayload where
  mac : String
  sent : List MsgPayload
  received : List MsgPayload
deriving DecidableEq, Repr

/-- The module-level `_LEGACY_COUNTERS` dict, keyed by origin
(`"SentMessages"` / `"ReceivedMessages"`). -/
structure LegacyCounters where
  sent : Nat
  recv : Nat
deriving DecidableEq, Repr

/-- `_legacy_timestamp(origin)`: read the origin's counter, produce the
synthetic instant, increment. `isSent` selects the origin key. -/
def legacyTimestampFor (isSent : Bool) (lc : LegacyCounters) : DateTime × LegacyCounters :=
  if isSent then (legacyTimestamp lc.sent, { lc with sent := lc.sent + 1 })
  else (legacyTimestamp lc.recv, { lc with recv := lc.recv + 1 })

/-- `_safe_int` (`history.py` version) on an already-`int` JSON value is the
identity; the persisted `seq` values are written as ints. -/
def safeIntOfInt (v : Int) : Option Int := some v

/-- `MessageRecord.from_payload`. The fresh `rid` is supplied by the caller
(object allocation); the legacy counters are threaded explicitly. -/
def MessageRecord.fromPayload (p : MsgPayload) (isSent : Bool) (rid : Nat)
    (lc : LegacyCounters) : Except String (MessageRecord × LegacyCounters) :=
  match p with
  | .legacy s =>
    let (ts, lc') := legacyTimestampFor isSent lc
    .ok ({ rid := rid, timestamp := ts, message := s,
           ack_status := if isSent then some ACK_TRUE else none, seq := none }, lc')
  | .obj o =>
    match parseTimestamp o.timestamp with
    | .error e => .error e
    | .ok ts =>
      match (match o.ack with
             | some a => (normalizeAckStatus (.str a)).map some
             | none => .ok (if isSent then some ACK_TRUE else none)) with
      | .error e => .error e
      | .ok ack =>
        .ok ({ rid := rid, timestamp := ts, message := o.message, ack_status := ack,
               seq := o.seq.bind safeIntOfInt }, lc)

/-- The `_messages` list comprehension of `Conversation.from_dict`, threading
the rid allocator and legacy counters left to right. -/
def msgsFromPayload (isSent : Bool) :
    List MsgPayload → Nat → LegacyCounters →
    Except String (List MessageRecord × Nat × LegacyCounters)
  | [], rid, lc => .ok ([], rid, lc)
  | p :: rest, rid, lc =>
    match MessageRecord.fromPayload p isSent rid lc with
    | .error e => .error e
    | .ok (r, lc') =>
      match msgsFromPayload isSent rest (rid + 1) lc' with
      | .error e => .error e
      | .ok (rs, rid', lc'') => .ok (r :: rs, rid', lc'')

/-- `Conversation.from_dict`: validate and normalize the MAC, then parse the
sent and the received message lists. -/
def Conversation.fromDict (p : ConvPayload) (rid : Nat) (lc : LegacyCounters) :
    Except String (Conversation × Nat × LegacyCounters) :=
  match normalizeMac p.mac with
  | .error e => .error e
  | .ok mac =>
    match msgsFromPayload true p.sent rid lc with
    | .error e => .error e
    | .ok (sent, rid1, lc1) =>
      match msgsFromPayload false p.received rid1 lc1 with
      | .error e => .error e
      | .ok (received, rid2, lc2) => .ok (⟨mac, sent, received⟩, rid2, lc2)

/-- `MessageRecord.to_dict`: `ack` key only when `include_ack` and the status
is set; `seq` key only when set. -/
def MessageRecord.toDict (r : MessageRecord) (include_ack : Bool) : MsgObj :=
  { timestamp := formatTimestamp r.timestamp, message := r.message,
    ack := if include_ack then r.ack_status else none,
    seq := r.seq }

/-- `Conversation.to_dict`. -/
def Conversation.toDict (c : Conversation) : ConvPayload :=
  { mac := c.mac,
    sent := c.sent_messages.map (fun r => .obj (r.toDict true)),
    received := c.received_messages.map (fun r => .obj (r.toDict false)) }

/-- The sequence index `_seq_index`: sequence number ↦ (MAC, record id). -/
abbrev SeqIndex := List (Int × String × Nat)

/-- `History` object state. `nextRid` is the record-identity allocator; `lc`
the module-level legacy counters; `file` the parsed content of the storage
path (`none` = file absent). Persistence is modelled at the parsed-JSON
level. -/
structure History where
  order : List String
  convs : List (String × Conversation)
  seqIndex : SeqIndex
  seqOffset : Int
  nextRid : Nat
  lc : LegacyCounters
  file : Option (List ConvPayload)
deriving DecidableEq, Repr

/-- `_index_sequence`: error on a sequence number already held by a
different record (`is` modelled by `rid`); otherwise (re-)insert. -/
def indexSequence (idx : SeqIndex) (mac : String) (r : MessageRecord) :
    Except String SeqIndex :=
  match r.seq with
  | none => .ok idx
  | some s =>
    match dictGet s idx with
    | some (_, rid') =>
      if rid' ≠ r.rid then
        .error ("Duplicate sequence number detected for " ++ mac)
      else .ok (dictSet s (mac, r.rid) idx)
    | none => .ok (dictSet s (mac, r.rid) idx)

/-- `_remove_sequence`. -/
def removeSequence (idx : SeqIndex) (r : MessageRecord) : SeqIndex :=
  match r.seq with
  | none => idx
  | some s => dictRemove s idx

def indexRecords (mac : String) : SeqIndex → List MessageRecord → Except String SeqIndex
  | idx, [] => .ok idx
  | idx, r :: rs =>
    match indexSequence idx mac r with
    | .error e => .error e
    | .ok idx' => indexRecords mac idx' rs

/-- `_register_conversation_sequences`: index the sent then the received
records. -/
def registerConversationSequences (idx : SeqIndex) (c : Conversation) :
    Except String SeqIndex :=
  match indexRecords c.mac idx c.sent_messages with
  | .error e => .error e
  | .ok idx' => indexRecords c.mac idx' c.received_messages

/-- Python `max(keys, default=0)`. -/
def maxKeys (idx : SeqIndex) : Int :=
  match idx with
  | [] => 0
  | (k, _) :: rest => (rest.map (·.1)).foldl max k

/-! ### History operations. A method that can raise returns
`Except String α × History`; the second component is the object state after
the call, including mutations performed before a raise (Python exceptions do
not roll back). -/

/-- The loop body of `reload`: parse each entry, install the conversation,
register its sequence numbers; stop at the first error, keeping the partial
state. -/
def reloadEntries : History → List ConvPayload → Except String Unit × History
  | h, [] => (.ok (), h)
  | h, entry :: rest =>
    match Conversation.fromDict entry h.nextRid h.lc with
    | .error e => (.error e, h)
    | .ok (conversation, rid', lc') =>
      let h' : History :=
        { h with convs := dictSet conversation.mac conversation h.convs,
                 order := h.order ++ [conversation.mac],
                 nextRid := rid', lc := lc' }
      match registerConversationSequences h'.seqIndex conversation with
      | .error e => (.error e, h')
      | .ok idx => reloadEntries { h' with seqIndex := idx } rest

/-- `History.reload`: reset the legacy counters and the offset, clear, parse
the file (absent file ⇒ empty store), set the offset to the largest indexed
sequence number. JSON-level decode errors are outside the typed payload
model. -/
def History.reload (h : History) : Except String Unit × History :=
  let h0 : History := { h with lc := ⟨0, 0⟩, seqOffset := 0 }
  match h0.file with
  | none => (.ok (), { h0 with convs := [], order := [], seqIndex := [] })
  | some entries =>
    match reloadEntries { h0 with convs := [], order := [], seqIndex := [] } entries with
    | (.ok (), h') => (.ok (), { h' with seqOffset := maxKeys h'.seqIndex })
    | (.error e, h') => (.error e, h')

/-- `History.save`: rewrite the whole file from memory, one entry per
contact in insertion order. (The `KeyError` on a MAC missing from the dict
is unreachable while `order` and `convs` are kept in sync; such an entry is
skipped here.) -/
def History.save (h : History) : History :=
  { h with file := some (h.order.filterMap
      (fun mac => (dictGet mac h.convs).map Conversation.toDict)) }

def History.listContacts (h : History) : List String := h.order

/-- `History.normalize_seq`. -/
def History.normalizeSeq (h : History) (raw : Option Int) : Option Int :=
  match raw with
  | none => none
  | some r => some (r + h.seqOffset + 1)

/-- `History.ensure_contact` (after MAC normalization by the caller). -/
def History.ensureContact (h : History) (mac : String) : History :=
  if (dictGet mac h.convs).isSome then h
  else { h with convs := dictSet mac ⟨mac, [], []⟩ h.convs,
                order := h.order ++ [mac] }

/-- Replace a conversation's content under `mac`, if present. -/
def History.updateConv (h : History) (mac : String) (f : Conversation → Conversation) :
    History :=
  match dictGet mac h.convs with
  | none => h
  | some c => { h with convs := dictSet mac (f c) h.convs }

/-- Mutate the record object with identity `rid` (it lives in exactly one
conversation list). -/
def History.updateRecord (h : History) (mac : String) (rid : Nat)
    (f : MessageRecord → MessageRecord) : History :=
  h.updateConv mac (fun c =>
    { c with
      sent_messages := c.sent_messages.map (fun r => if r.rid = rid then f r else r),
      received_messages :=
        c.received_messages.map (fun r => if r.rid = rid then f r else r) })

/-- `History._find_sent_record` (timestamps already UTC `DateTime`s, so
`_coerce_timestamp` is the identity on them). -/
def History.findSentRecord (h : History) (mac : String) (ts : DateTime) :
    Option MessageRecord :=
  match dictGet mac h.convs with
  | none => none
  | some c => c.sent_messages.find? (fun r => r.timestamp = ts)

/-- Look a record up by its identity. -/
def History.recordByRid (h : History) (mac : String) (rid : Nat) :
    Option MessageRecord :=
  match dictGet mac h.convs with
  | none => none
  | some c => (c.sent_messages ++ c.received_messages).find? (fun r => r.rid = rid)

/-- `History._append_message`. `now` stands for `_now_utc()`; the direction
string is modelled by `isSent` (the unsupported-direction raise is excluded
by typing). -/
def History.appendMessage (h0 : History) (mac : String) (message : String)
    (isSent : Bool) (timestamp : Option DateTime) (ack_status : Option String)
    (seq : Option Int) (now : DateTime) : Except String MessageRecord × History :=
  match normalizeMac mac with
  | .error e => (.error e, h0)
  | .ok mac =>
    let h := h0.ensureContact mac
    let ts := timestamp.getD now
    match (match ack_status with
           | some a => (normalizeAckStatus (.str a)).map some
           | none => .ok (if isSent then some ACK_OUTSTANDING else none)) with
    | .error e => (.error e, h)
    | .ok ack =>
      let record : MessageRecord :=
        ⟨h.nextRid, ts, message, ack, seq⟩
      let h := { h with nextRid := h.nextRid + 1 }
      let h := h.updateConv mac (fun c =>
        if isSent then { c with sent_messages := c.sent_messages ++ [record] }
        else { c with received_messages := c.received_messages ++ [record] })
      match indexSequence h.seqIndex mac record with
      | .error e => (.error e, h)
      | .ok idx => (.ok record, { h with seqIndex := idx })

/-- `History.record_sent_message` (`ack_status or ACK_OUTSTANDING`: `None`
and the empty string are falsy). -/
def History.recordSentMessage (h : History) (mac message : String)
    (timestamp : Option DateTime) (ack_status : Option String) (seq : Option Int)
    (persist : Bool) (now : DateTime) : Except String MessageRecord × History :=
  let ack := match ack_status with
    | none => ACK_OUTSTANDING
    | some a => if a = "" then ACK_OUTSTANDING else a
  match h.appendMessage mac message true timestamp (some ack) seq now with
  | (.error e, h') => (.error e, h')
  | (.ok record, h') => (.ok record, if persist then h'.save else h')

/-- `History.record_received_message`. -/
def History.recordReceivedMessage (h : History) (mac message : String)
    (timestamp : Option DateTime) (seq : Option Int) (persist : Bool)
    (now : DateTime) : Except String MessageRecord × History :=
  match h.appendMessage mac message false timestamp none seq now with
  | (.error e, h') => (.error e, h')
  | (.ok record, h') => (.ok record, if persist then h'.save else h')

/-- `History.fail_pending_ack`: no-op on a missing or already-terminal
record; otherwise set `failed` and persist. -/
def History.failPendingAck (h : History) (mac : String) (ts : DateTime)
    (persist : Bool) : Except String Bool × History :=
  match normalizeMac mac with
  | .error e => (.error e, h)
  | .ok mac =>
    match h.findSentRecord mac ts with
    | none => (.ok false, h)
    | some r =>
      if r.ack_status = some ACK_TRUE ∨ r.ack_status = some ACK_FALSE then
        (.ok false, h)
      else
        let h' := h.updateRecord mac r.rid
          (fun r0 => { r0 with ack_status := some ACK_FALSE })
        (.ok true, if persist then h'.save else h')

/-- `History.set_ack_status_by_seq`. -/
def History.setAckStatusBySeq (h : History) (seq : Int) (status : AckInput)
    (persist : Bool) : Except String Bool × History :=
  match dictGet seq h.seqIndex with
  | none => (.ok false, h)
  | some (mac, rid) =>
    match normalizeAckStatus status with
    | .error e => (.error e, h)
    | .ok normalized =>
      match h.recordByRid mac rid with
      | none => (.ok false, h)
      | some r =>
        if r.ack_status = some normalized then (.ok false, h)
        else
          let h' := h.updateRecord mac rid
            (fun r0 => { r0 with ack_status := some normalized })
          (.ok true, if persist then h'.save else h')

/-- `History.set_sequence_for_message`: remove a stale index entry, mutate
the record's `seq`, then index — the uniqueness check fires inside
`_index_sequence`, after those mutations. -/
def History.setSequenceForMessage (h : History) (mac : String) (ts : DateTime)
    (seq : Int) (persist : Bool) : Except String Bool × History :=
  match normalizeMac mac with
  | .error e => (.error e, h)
  | .ok mac =>
    match h.findSentRecord mac ts with
    | none => (.ok false, h)
    | some r =>
      if r.seq = some seq then (.ok false, h)
      else
        let h1 := if r.seq ≠ none then { h with seqIndex := removeSequence h.seqIndex r }
                  else h
        let h2 := h1.updateRecord mac r.rid (fun r0 => { r0 with seq := some seq })
        let r' : MessageRecord := { r with seq := some seq }
        match indexSequence h2.seqIndex mac r' with
        | .error e => (.error e, h2)
        | .ok idx =>
          let h3 := { h2 with seqIndex := idx }
          (.ok true, if persist then h3.save else h3)

/-- The observable content of a store: contacts in order with the dataclass
fields of every record. -/
def History.snapshot (h : History) :
    List (String × List RecordFields × List RecordFields) :=
  h.order.filterMap (fun mac => (dictGet mac h.convs).map (fun c =>
    (mac, c.sent_messages.map MessageRecord.fields,
     c.received_messages.map MessageRecord.fields)))

/-! ### Link Protocol Engine (`vlc_interface.py`) -/

/-- `VLCInterface` state relevant to the claims. `written` is the byte log
of the serial channel; `ackEvents` records each `(mac, timestamp)` delivered
to the registered ack callbacks, in order; `logs` records warnings. The
serial object, reader thread and callback lists are modelled away (each
registered callback receives each recorded event). -/
structure Engine where
  started : Bool
  pendingAcks : List (String × List String)
  written : List (List Char)
  ackEvents : List (String × String)
  logs : List String
deriving DecidableEq, Repr

def MAX_PAYLOAD : Nat := 200

def isAsciiChar (c : Char) : Bool := c.toNat < 128

/-- `self._pending_acks[dest].append(ts_iso)` on the `defaultdict(deque)`. -/
def enqueuePending (dest : String) (ts : String) :
    List (String × List String) → List (String × List String)
  | [] => [(dest, [ts])]
  | (d, q) :: rest =>
    if d = dest then (d, q ++ [ts]) :: rest
    else (d, q) :: enqueuePending dest ts rest

/-- `VLCInterface.send_message`: validate (not-started, empty destination,
payload size, ASCII) before any serial write; then escape, frame
`m[<escaped>\0,<dest>]`, write it (`_send_command` appends a newline) and
enqueue the pending-ack timestamp. -/
def Engine.sendMessage (e : Engine) (dest_mac message : String)
    (timestamp : DateTime) : Except String Unit × Engine :=
  if ¬e.started then (.error "VLC interface not started.", e)
  else
    let dest := pyUpper (pyStrip dest_mac)
    if dest = "" then (.error "Destination MAC must not be empty.", e)
    else
      let ts_iso := formatTimestamp timestamp
      if message.length + 1 > MAX_PAYLOAD then
        (.error "Message payload exceeds the character limit required by the VLC device.", e)
      else if ¬message.data.all isAsciiChar then (.error "Messages must be ASCII.", e)
      else
        let escaped := escapePayload message.data
        let payload := ['m', '['] ++ escaped ++ ['\x00', ','] ++ dest.data ++ [']']
        let e1 : Engine := { e with written := e.written ++ [payload ++ ['\n']] }
        (.ok (), { e1 with pendingAcks := enqueuePending dest ts_iso e1.pendingAcks })

/-- `VLCInterface._handle_ack_update`: pop the oldest pending timestamp for
the MAC (dropping the queue's map entry when it empties); warn and stop if
none was pending; notify ack subscribers only on success; log drops. -/
def Engine.handleAckUpdate (e : Engine) (mac : String) (success : Bool) : Engine :=
  match dictGet mac e.pendingAcks with
  | none => { e with logs := e.logs ++ ["Ack event with no pending messages"] }
  | some [] => { e with logs := e.logs ++ ["Ack event with no pending messages"] }
  | some (ts :: rest) =>
    let e1 : Engine :=
      { e with pendingAcks := if rest = [] then dictRemove mac e.pendingAcks
                              else dictSet mac rest e.pendingAcks }
    if ts = "" then { e1 with logs := e1.logs ++ ["Ack event with no pending messages"] }
    else if success then { e1 with ackEvents := e1.ackEvents ++ [(mac, ts)] }
    else { e1 with logs := e1.logs ++ ["Device reported drop"] }

/-! ### Statistics parsing (`_parse_stats` and helpers) -/

def isDigitCh (c : Char) : Bool := 48 ≤ c.toNat && c.toNat ≤ 57

/-- Consume `('_'? digit)*` greedily. -/
def eatTail : List Char → List Char
  | '_' :: c :: cs => if isDigitCh c then eatTail cs else '_' :: c :: cs
  | c :: cs => if isDigitCh c then eatTail cs else c :: cs
  | [] => []

/-- Consume `digit ('_'? digit)*`; `none` when no leading digit. -/
def eatDigits : List Char → Option (List Char)
  | c :: cs => if isDigitCh c then some (eatTail cs) else none
  | [] => none

/-- CPython `int()` literal grammar over a string: optional surrounding
whitespace, optional sign, digits with single underscores between digits. -/
def intLiteralChars : List Char → Bool
  | '+' :: r => eatDigits r = some []
  | '-' :: r => eatDigits r = some []
  | r => eatDigits r = some []

/-- Decimal value of a digit run, ignoring underscores and sign handled by
the caller. -/
def digitsValue (cs : List Char) : Int :=
  cs.foldl (fun acc c => if c = '_' then acc else acc * 10 + (c.toNat - 48 : Int)) 0

/-- `_safe_int` (`vlc_interface.py` version): `int(value)`, `None` on
failure. -/
def pySafeInt (s : String) : Option Int :=
  let cs := stripChars s.data
  if intLiteralChars cs then
    match cs with
    | '+' :: r => some (digitsValue r)
    | '-' :: r => some (-(digitsValue r))
    | r => some (digitsValue r)
  else none

def signedIntAll : List Char → Bool
  | '+' :: r => eatDigits r = some []
  | '-' :: r => eatDigits r = some []
  | r => eatDigits r = some []

def expOk (hasDigits : Bool) : List Char → Bool
  | [] => hasDigits
  | 'e' :: r => hasDigits && signedIntAll r
  | _ => false

def floatTail (hasDigits : Bool) : List Char → Bool
  | [] => hasDigits
  | '.' :: r =>
    (match eatDigits r with
     | some r2 => expOk true r2
     | none => hasDigits && expOk hasDigits r)
  | 'e' :: r => hasDigits && signedIntAll r
  | _ => false

def floatNumeric (cs : List Char) : Bool :=
  match eatDigits cs with
  | some rest => floatTail true rest
  | none => floatTail false cs

/-- CPython `float()` literal grammar (ASCII): optional whitespace and sign,
then `inf`/`infinity`/`nan` (case-insensitive) or a decimal number with
optional fraction and exponent, underscores between digits. -/
def pyFloatParses (s : String) : Bool :=
  let cs := (stripChars s.data).map Char.toLower
  let cs := match cs with
    | '+' :: r => r
    | '-' :: r => r
    | r => r
  cs = ['i', 'n', 'f'] || cs = ['i', 'n', 'f', 'i', 'n', 'i', 't', 'y'] ||
  cs = ['n', 'a', 'n'] || floatNumeric cs

/-- `_safe_float`: `float(value)`, `None` on failure. A successfully parsed
float is modelled by its accepted literal (no claim compares float values). -/
def pySafeFloat (s : String) : Option String :=
  if pyFloatParses s then some s else none

/-- Split a path on the first literal `->`. -/
def splitArrow : List Char → Option (List Char × List Char)
  | [] => none
  | '-' :: '>' :: rest => some ([], rest)
  | c :: cs => (splitArrow cs).map (fun p => (c :: p.1, p.2))

/-- `_split_path`. -/
def splitPath (path : String) : String × Option String :=
  match splitArrow path.data with
  | none => (pyStrip path, none)
  | some (src, dest) => (pyStrip ⟨src⟩, some (pyStrip ⟨dest⟩))

/-- Split at the first `(`. -/
def splitParen : List Char → Option (List Char × List Char)
  | [] => none
  | '(' :: rest => some ([], rest)
  | c :: cs => (splitParen cs).map (fun p => (c :: p.1, p.2))

/-- `_parse_size_field`: `size(txsize)` or a bare size. -/
def parseSizeField (f : String) : Option Int × Option Int :=
  if ('(' ∈ f.data) ∧ f.data.getLast? = some ')' then
    match splitParen f.data with
    | some (sizePart, txPart) =>
      (pySafeInt ⟨sizePart⟩, pySafeInt ⟨txPart.dropLast⟩)
    | none => (pySafeInt f, none)
  else (pySafeInt f, none)

/-- The statistics record built by `_parse_stats`. An outer `Option` models
dict-key absence (too few fields); the inner `Option` a present key holding
`None` after a failed numeric parse. -/
structure Stats where
  mode : String
  type : String
  path : Option String
  src : Option String
  dest : Option String
  size : Option (Option Int)
  tx_size : Option (Option Int)
  seq : Option (Option Int)
  cw : Option (Option Int)
  cw_size : Option (Option Int)
  dispatch_ms : Option (Option String)
  timestamp_ms : Option (Option String)
deriving DecidableEq, Repr

/-- `_parse_stats` (the caller guarantees at least two fields; `getD` stands
for the guarded Python indexing). -/
def parseStats (fields : List String) : Stats :=
  { mode := fields.getD 0 "",
    type := if 1 < fields.length then fields.getD 1 "" else "",
    path := if 2 < fields.length then some (fields.getD 2 "") else none,
    src := if 2 < fields.length ∧ (splitPath (fields.getD 2 "")).1 ≠ "" then
             some (splitPath (fields.getD 2 "")).1
           else none,
    dest := if 2 < fields.length then
              match (splitPath (fields.getD 2 "")).2 with
              | some d => if d ≠ "" then some d else none
              | none => none
            else none,
    size := if 3 < fields.length then some (parseSizeField (fields.getD 3 "")).1 else none,
    tx_size := if 3 < fields.length then some (parseSizeField (fields.getD 3 "")).2 else none,
    seq := if 4 < fields.length then some (pySafeInt (fields.getD 4 "")) else none,
    cw := if 5 < fields.length then some (pySafeInt (fields.getD 5 "")) else none,
    cw_size := if 6 < fields.length then some (pySafeInt (fields.getD 6 "")) else none,
    dispatch_ms := if 7 < fields.length then some (pySafeFloat (fields.getD 7 "")) else none,
    timestamp_ms := if 8 < fields.length then some (pySafeFloat (fields.getD 8 "")) else none }

/-! ## Supporting lemmas -/

theorem dictGet_dictSet_self {κ β : Type} [DecidableEq κ] (k : κ) (v : β)
    (l : List (κ × β)) : dictGet k (dictSet k v l) = some v := by
  induction l with
  | nil => simp [dictGet, dictSet]
  | cons head rest ih =>
    obtain ⟨k', v'⟩ := head
    by_cases hk : k' = k
    · subst hk
      simp [dictGet, dictSet]
    · simp [dictGet, dictSet, hk, ih]

theorem dictGet_dictSet_ne {κ β : Type} [DecidableEq κ] {k k' : κ} (hk : k' ≠ k)
    (v : β) (l : List (κ × β)) : dictGet k (dictSet k' v l) = dictGet k l := by
  induction l with
  | nil => simp [dictGet, dictSet, hk]
  | cons head rest ih =>
    obtain ⟨k'', v''⟩ := head
    by_cases h2 : k'' = k'
    · subst h2
      simp [dictGet, dictSet, hk]
    · by_cases h3 : k'' = k
      · subst h3
        simp [dictGet, dictSet, h2]
      · simp [dictGet, dictSet, h2, h3, ih]

theorem dictGet_dictRemove_ne {κ β : Type} [DecidableEq κ] {k k' : κ} (hk : k' ≠ k)
    (l : List (κ × β)) : dictGet k (dictRemove k' l) = dictGet k l := by
  induction l with
  | nil => simp [dictRemove]
  | cons head rest ih =>
    obtain ⟨k'', v''⟩ := head
    by_cases h2 : k'' = k'
    · subst h2
      simp [dictGet, dictRemove, hk]
    · by_cases h3 : k'' = k
      · subst h3
        simp [dictGet, dictRemove, h2]
      · simp [dictGet, dictRemove, h2, h3, ih]

theorem dictGet_not_mem {κ β : Type} [DecidableEq κ] {k : κ} {l : List (κ × β)}
    (h : k ∉ l.map Prod.fst) : dictGet k l = none := by
  induction l with
  | nil => rfl
  | cons head rest ih =>
    obtain ⟨k', v'⟩ := head
    simp only [List.map_cons, List.mem_cons, not_or] at h
    rw [dictGet, if_neg (fun he => h.1 he.symm)]
    exact ih h.2

theorem dictGet_dictRemove_self {κ β : Type} [DecidableEq κ] (k : κ)
    {l : List (κ × β)} (hnd : (l.map Prod.fst).Nodup) :
    dictGet k (dictRemove k l) = none := by
  induction l with
  | nil => simp [dictGet, dictRemove]
  | cons head rest ih =>
    obtain ⟨k', v'⟩ := head
    simp only [List.map_cons, List.nodup_cons] at hnd
    by_cases h2 : k' = k
    · subst h2
      rw [dictRemove, if_pos rfl]
      exact dictGet_not_mem hnd.1
    · rw [dictRemove, if_neg h2, dictGet, if_neg h2]
      exact ih hnd.2

theorem dictKeys_dictSet_nodup {κ β : Type} [DecidableEq κ] (k : κ) (v : β)
    {l : List (κ × β)} (hnd : (l.map Prod.fst).Nodup) :
    ((dictSet k v l).map Prod.fst).Nodup ∧
      ∀ k', (∃ w, (k', w) ∈ dictSet k v l) → k' = k ∨ ∃ w, (k', w) ∈ l := by
  induction l with
  | nil =>
    constructor
    · simp [dictSet]
    · intro k' hw
      obtain ⟨w, hw⟩ := hw
      simp only [dictSet, List.mem_singleton, Prod.mk.injEq] at hw
      exact Or.inl hw.1
  | cons head rest ih =>
    obtain ⟨k'', v''⟩ := head
    simp only [List.map_cons, List.nodup_cons] at hnd
    by_cases h2 : k'' = k
    · subst h2
      constructor
      · rw [dictSet, if_pos rfl]
        simp only [List.map_cons, List.nodup_cons]
        exact hnd
      · intro k' hw
        obtain ⟨w, hw⟩ := hw
        rw [dictSet, if_pos rfl] at hw
        rcases List.mem_cons.mp hw with he | he
        · exact Or.inl (congrArg Prod.fst he)
        · exact Or.inr ⟨w, List.mem_cons_of_mem _ he⟩
    · obtain ⟨ihn, ihm⟩ := ih hnd.2
      constructor
      · rw [dictSet, if_neg h2]
        simp only [List.map_cons, List.nodup_cons]
        refine ⟨?_, ihn⟩
        intro hmem
        obtain ⟨⟨ka, va⟩, hka, hfst⟩ := List.mem_map.mp hmem
        rcases ihm ka ⟨va, hka⟩ with he | ⟨w, hw⟩
        · exact h2 (hfst.symm.trans he).symm.symm
        · exact hnd.1 (by
            simp only [List.mem_map]
            exact ⟨(ka, w), hw, hfst⟩)
      · intro k' hw
        obtain ⟨w, hw⟩ := hw
        rw [dictSet, if_neg h2] at hw
        rcases List.mem_cons.mp hw with he | he
        · right
          exact ⟨w, by rw [he]; exact List.mem_cons_self _ _⟩
        · rcases ihm k' ⟨w, he⟩ with hc | ⟨w2, hw2⟩
          · exact Or.inl hc
          · exact Or.inr ⟨w2, List.mem_cons_of_mem _ hw2⟩

theorem dictRemove_sublist {κ β : Type} [DecidableEq κ] (k : κ) (l : List (κ × β)) :
    (dictRemove k l).Sublist l := by
  induction l with
  | nil => simp [dictRemove]
  | cons head rest ih =>
    obtain ⟨k', v'⟩ := head
    by_cases h2 : k' = k
    · rw [dictRemove, if_pos h2]
      exact (List.sublist_cons_self _ _)
    · rw [dictRemove, if_neg h2]
      exact ih.cons₂ _

theorem dictKeys_dictRemove_nodup {κ β : Type} [DecidableEq κ] (k : κ)
    {l : List (κ × β)} (hnd : (l.map Prod.fst).Nodup) :
    ((dictRemove k l).map Prod.fst).Nodup :=
  ((dictRemove_sublist k l).map Prod.fst).nodup hnd

/-- `save` does not touch the in-memory conversations. -/
theorem findSentRecord_save (h : History) (mac : String) (ts : DateTime) :
    h.save.findSentRecord mac ts = h.findSentRecord mac ts := rfl

/-- Finding after an identity-targeted record mutation that preserves
timestamps. -/
theorem findSentRecord_updateRecord (h : History) (mac : String) (rid : Nat)
    (f : MessageRecord → MessageRecord) (ts : DateTime)
    (hf : ∀ x, (f x).timestamp = x.timestamp) :
    (h.updateRecord mac rid f).findSentRecord mac ts =
      (h.findSentRecord mac ts).map (fun r => if r.rid = rid then f r else r) := by
  unfold History.updateRecord History.updateConv History.findSentRecord
  cases hc : dictGet mac h.convs with
  | none => simp [hc]
  | some c =>
    simp only [hc, dictGet_dictSet_self]
    rw [List.find?_map]
    have hpred : ((fun r : MessageRecord => decide (r.timestamp = ts)) ∘
        (fun r => if r.rid = rid then f r else r)) =
        fun r : MessageRecord => decide (r.timestamp = ts) := by
      funext x
      by_cases hx : x.rid = rid <;> simp [Function.comp, hx, hf]
    rw [hpred]

/-! ## Claim theorems -/

/-- Claim C2: for a sent record whose ack status is terminal (confirmed or
failed), `fail_pending_ack` at its (contact, timestamp) returns `false` and
leaves the store — record and persisted file included — unchanged; for a
record still outstanding it sets `failed` and returns `true` exactly once:
an immediately repeated call returns `false` and changes nothing further. -/
theorem fail_pending_ack_terminal_noop_outstanding_once (h : History)
    (mac mac' : String) (ts : DateTime) (r : MessageRecord) (persist : Bool)
    (hn : normalizeMac mac = .ok mac')
    (hfind : h.findSentRecord mac' ts = some r) :
    ((r.ack_status = some ACK_TRUE ∨ r.ack_status = some ACK_FALSE) →
      h.failPendingAck mac ts persist = (.ok false, h)) ∧
    (r.ack_status = some ACK_OUTSTANDING →
      ∃ h', h.failPendingAck mac ts persist = (.ok true, h') ∧
        h'.findSentRecord mac' ts = some { r with ack_status := some ACK_FALSE } ∧
        h'.failPendingAck mac ts persist = (.ok false, h')) := by
  constructor
  · intro hterm
    simp only [History.failPendingAck, hn, hfind]
    rw [if_pos hterm]
  · intro hout
    have hne : ¬(r.ack_status = some ACK_TRUE ∨ r.ack_status = some ACK_FALSE) := by
      rw [hout]
      simp only [ACK_TRUE, ACK_FALSE, not_or]
      exact ⟨by simp [ACK_OUTSTANDING], by simp [ACK_OUTSTANDING]⟩
    have hfind' :
        ∀ hh : History, hh = h.updateRecord mac' r.rid
            (fun r0 => { r0 with ack_status := some ACK_FALSE }) →
          hh.findSentRecord mac' ts = some { r with ack_status := some ACK_FALSE } := by
      intro hh hh_eq
      subst hh_eq
      rw [findSentRecord_updateRecord h mac' r.rid
        (fun r0 => { r0 with ack_status := some ACK_FALSE }) ts (fun x => rfl), hfind]
      simp
    refine ⟨(if persist then
        (h.updateRecord mac' r.rid
          (fun r0 => { r0 with ack_status := some ACK_FALSE })).save
      else
        h.updateRecord mac' r.rid
          (fun r0 => { r0 with ack_status := some ACK_FALSE })), ?_, ?_, ?_⟩
    · simp only [History.failPendingAck, hn, hfind]
      rw [if_neg hne]
    · cases persist with
      | false => exact hfind' _ rfl
      | true =>
        simp only [if_true]
        rw [findSentRecord_save]
        exact hfind' _ rfl
    · have hfound :
          (if persist then
              (h.updateRecord mac' r.rid
                (fun r0 => { r0 with ack_status := some ACK_FALSE })).save
            else
              h.updateRecord mac' r.rid
                (fun r0 => { r0 with ack_status := some ACK_FALSE })).findSentRecord
            mac' ts = some { r with ack_status := some ACK_FALSE } := by
        cases persist with
        | false => exact hfind' _ rfl
        | true =>
          simp only [if_true]
          rw [findSentRecord_save]
          exact hfind' _ rfl
      simp only [History.failPendingAck, hn, hfound]
      rw [if_pos (Or.inr (by simp))]

def c2Time : DateTime := ⟨2025, 2, 1, 0, 0, 0, 0⟩

def c2Record : MessageRecord := ⟨0, c2Time, "Ping", some ACK_OUTSTANDING, none⟩

def c2Store : History :=
  { order := ["AA"], convs := [("AA", ⟨"AA", [c2Record], []⟩)], seqIndex := [],
    seqOffset := 0, nextRid := 1, lc := ⟨0, 0⟩, file := none }

/-- Witness for C2 at a concrete store. -/
theorem fail_pending_ack_terminal_noop_outstanding_once_witness :
    normalizeMac "AA" = .ok "AA" ∧
    c2Store.findSentRecord "AA" c2Time = some c2Record ∧
    ((c2Record.ack_status = some ACK_TRUE ∨ c2Record.ack_status = some ACK_FALSE) →
      c2Store.failPendingAck "AA" c2Time true = (.ok false, c2Store)) ∧
    (c2Record.ack_status = some ACK_OUTSTANDING →
      ∃ h', c2Store.failPendingAck "AA" c2Time true = (.ok true, h') ∧
        h'.findSentRecord "AA" c2Time =
          some { c2Record with ack_status := some ACK_FALSE } ∧
        h'.failPendingAck "AA" c2Time true = (.ok false, h')) :=
  ⟨rfl, by decide,
    (fail_pending_ack_terminal_noop_outstanding_once c2Store "AA" "AA" c2Time c2Record
      true rfl (by decide)).1,
    (fail_pending_ack_terminal_noop_outstanding_once c2Store "AA" "AA" c2Time c2Record
      true rfl (by decide)).2⟩

/-- Claim C7: an ack event for a destination with no pending-ack queue entry
only logs a warning — no callback fires and neither the queues nor the
delivered-event log change; an ack event reporting failure pops the oldest
pending timestamp and only logs — no ack callback fires. -/
theorem ack_event_unmatched_logged_failure_popped_silently (e : Engine)
    (mac : String) (success : Bool) :
    (dictGet mac e.pendingAcks = none →
      e.handleAckUpdate mac success =
        { e with logs := e.logs ++ ["Ack event with no pending messages"] }) ∧
    (∀ t rest, dictGet mac e.pendingAcks = some (t :: rest) → t ≠ "" →
      e.handleAckUpdate mac false =
        { e with
          pendingAcks := if rest = [] then dictRemove mac e.pendingAcks
                         else dictSet mac rest e.pendingAcks,
          logs := e.logs ++ ["Device reported drop"] }) := by
  constructor
  · intro hget
    simp only [Engine.handleAckUpdate, hget]
  · intro t rest hget ht
    simp only [Engine.handleAckUpdate, hget]
    rw [if_neg ht]
    simp

def c7Engine : Engine :=
  { started := true, pendingAcks := [("AB", ["t1"])], written := [],
    ackEvents := [], logs := [] }

/-- Witness for C7: an unmatched ack for `CD` and a failure ack for `AB`. -/
theorem ack_event_unmatched_logged_failure_popped_silently_witness :
    (dictGet "CD" c7Engine.pendingAcks = none ∧
      c7Engine.handleAckUpdate "CD" true =
        { c7Engine with logs := ["Ack event with no pending messages"] }) ∧
    (dictGet "AB" c7Engine.pendingAcks = some ("t1" :: []) ∧
      c7Engine.handleAckUpdate "AB" false =
        { c7Engine with pendingAcks := dictRemove "AB" c7Engine.pendingAcks,
                        logs := ["Device reported drop"] }) :=
  ⟨⟨by decide,
    (ack_event_unmatched_logged_failure_popped_silently c7Engine "CD" true).1 (by decide)⟩,
   ⟨by decide, by
    have := (ack_event_unmatched_logged_failure_popped_silently c7Engine "AB" true).2
      "t1" [] (by decide) (by decide)
    simpa using this⟩⟩

/-- Claim C9: statistics parsing is total and per-field defensive — with at
least the mode and type fields present, every later field is parsed from its
own text alone (a failed numeric parse yielding `none`, never an exception),
and changing or malforming one field (here the sequence field) never
prevents or alters the parsing of the other fields. -/
theorem parse_stats_total_and_defensive (fields : List String)
    (h2 : 2 ≤ fields.length) :
    ((parseStats fields).mode = fields.getD 0 "") ∧
    ((parseStats fields).type = fields.getD 1 "") ∧
    ((parseStats fields).seq =
      if 4 < fields.length then some (pySafeInt (fields.getD 4 "")) else none) ∧
    ((parseStats fields).cw =
      if 5 < fields.length then some (pySafeInt (fields.getD 5 "")) else none) ∧
    ((parseStats fields).cw_size =
      if 6 < fields.length then some (pySafeInt (fields.getD 6 "")) else none) ∧
    ((parseStats fields).dispatch_ms =
      if 7 < fields.length then some (pySafeFloat (fields.getD 7 "")) else none) ∧
    ((parseStats fields).timestamp_ms =
      if 8 < fields.length then some (pySafeFloat (fields.getD 8 "")) else none) ∧
    (∀ fields' : List String, fields'.length = fields.length →
      (∀ j, j ≠ 4 → fields'.getD j "" = fields.getD j "") →
      (parseStats fields').mode = (parseStats fields).mode ∧
      (parseStats fields').type = (parseStats fields).type ∧
      (parseStats fields').path = (parseStats fields).path ∧
      (parseStats fields').src = (parseStats fields).src ∧
      (parseStats fields').dest = (parseStats fields).dest ∧
      (parseStats fields').size = (parseStats fields).size ∧
      (parseStats fields').tx_size = (parseStats fields).tx_size ∧
      (parseStats fields').cw = (parseStats fields).cw ∧
      (parseStats fields').cw_size = (parseStats fields).cw_size ∧
      (parseStats fields').dispatch_ms = (parseStats fields).dispatch_ms ∧
      (parseStats fields').timestamp_ms = (parseStats fields).timestamp_ms) := by
  refine ⟨rfl, ?_, rfl, rfl, rfl, rfl, rfl, ?_⟩
  · simp only [parseStats]
    rw [if_pos (by omega)]
  · intro fields' hlen hagree
    have h0 := hagree 0 (by omega)
    have h1 := hagree 1 (by omega)
    have h2' := hagree 2 (by omega)
    have h3 := hagree 3 (by omega)
    have h5 := hagree 5 (by omega)
    have h6 := hagree 6 (by omega)
    have h7 := hagree 7 (by omega)
    have h8 := hagree 8 (by omega)
    simp only [parseStats, hlen, h0, h1, h2', h3, h5, h6, h7, h8]
    simp

/-- Witness for C9: six fields with a malformed sequence field `x`. -/
theorem parse_stats_total_and_defensive_witness :
    2 ≤ (["s", "R", "A->B", "10(12)", "x", "7"] : List String).length ∧
    (parseStats ["s", "R", "A->B", "10(12)", "x", "7"]).seq =
      (if 4 < (["s", "R", "A->B", "10(12)", "x", "7"] : List String).length
       then some (pySafeInt "x") else none) ∧
    (parseStats ["s", "R", "A->B", "10(12)", "x", "7"]).cw =
      (if 5 < (["s", "R", "A->B", "10(12)", "x", "7"] : List String).length
       then some (pySafeInt "7") else none) :=
  ⟨by decide,
   (parse_stats_total_and_defensive ["s", "R", "A->B", "10(12)", "x", "7"]
     (by decide)).2.2.1,
   (parse_stats_total_and_defensive ["s", "R", "A->B", "10(12)", "x", "7"]
     (by decide)).2.2.2.1⟩

/-- Claim C5: `send_message` rejects — returning a validation error with the
engine state (written bytes and pending-ack queues) unchanged — every call
whose destination is empty after trimming, whose text plus the NUL
terminator exceeds 200 characters, or whose text is not ASCII; in each case
nothing is written to the serial channel. -/
theorem send_message_rejects_before_write (e : Engine) (dest message : String)
    (ts : DateTime) (hstart : e.started = true) :
    (pyStrip dest = "" →
      e.sendMessage dest message ts = (.error "Destination MAC must not be empty.", e)) ∧
    (pyStrip dest ≠ "" → message.length + 1 > MAX_PAYLOAD →
      e.sendMessage dest message ts =
        (.error "Message payload exceeds the character limit required by the VLC device.", e)) ∧
    (pyStrip dest ≠ "" → message.length + 1 ≤ MAX_PAYLOAD →
      ¬message.data.all isAsciiChar →
      e.sendMessage dest message ts = (.error "Messages must be ASCII.", e)) := by
  have hup : ∀ s : String, (pyUpper s = "") ↔ s = "" := by
    intro s
    constructor
    · intro hs
      apply String.ext
      have := congrArg String.data hs
      simpa [pyUpper] using this
    · intro hs
      subst hs
      rfl
  refine ⟨?_, ?_, ?_⟩
  · intro hd
    simp only [Engine.sendMessage, hstart]
    rw [if_neg (by simp), if_pos ((hup _).mpr hd)]
  · intro hd hlen
    simp only [Engine.sendMessage, hstart]
    rw [if_neg (by simp), if_neg (fun hc => hd ((hup _).mp hc)), if_pos hlen]
  · intro hd hlen hascii
    simp only [Engine.sendMessage, hstart]
    rw [if_neg (by simp), if_neg (fun hc => hd ((hup _).mp hc)),
      if_neg (by omega), if_pos hascii]

def c5Engine : Engine :=
  { started := true, pendingAcks := [], written := [], ackEvents := [], logs := [] }

def c5LongMessage : String := ⟨List.replicate 200 'a'⟩

set_option maxRecDepth 8000 in
/-- Witness for C5: a blank destination, an oversized message, and a
non-ASCII message are each rejected with the engine unchanged. -/
theorem send_message_rejects_before_write_witness :
    c5Engine.started = true ∧
    (pyStrip "  " = "" ∧
      c5Engine.sendMessage "  " "hi" ⟨2025, 1, 1, 0, 0, 0, 0⟩ =
        (.error "Destination MAC must not be empty.", c5Engine)) ∧
    (c5LongMessage.length + 1 > MAX_PAYLOAD ∧
      c5Engine.sendMessage "AB" c5LongMessage ⟨2025, 1, 1, 0, 0, 0, 0⟩ =
        (.error "Message payload exceeds the character limit required by the VLC device.",
         c5Engine)) ∧
    (¬("é".data.all isAsciiChar) ∧
      c5Engine.sendMessage "AB" "é" ⟨2025, 1, 1, 0, 0, 0, 0⟩ =
        (.error "Messages must be ASCII.", c5Engine)) :=
  ⟨rfl,
   ⟨by decide,
    (send_message_rejects_before_write c5Engine "  " "hi" ⟨2025, 1, 1, 0, 0, 0, 0⟩ rfl).1
      (by decide)⟩,
   ⟨by decide,
    (send_message_rejects_before_write c5Engine "AB" c5LongMessage
      ⟨2025, 1, 1, 0, 0, 0, 0⟩ rfl).2.1 (by decide) (by decide)⟩,
   ⟨by decide,
    (send_message_rejects_before_write c5Engine "AB" "é"
      ⟨2025, 1, 1, 0, 0, 0, 0⟩ rfl).2.2 (by decide) (by decide) (by decide)⟩⟩

/-! ### Behaviour of `replaceAll` (for the escape/sanitize claims) -/

theorem replaceAll_nil (p : Char) (ps rep : List Char) :
    replaceAll p ps rep [] = [] := by
  rw [replaceAll]

theorem replaceAll_cons_ne (p : Char) (ps rep : List Char) {c : Char} (l : List Char)
    (hc : c ≠ p) : replaceAll p ps rep (c :: l) = c :: replaceAll p ps rep l := by
  rw [replaceAll, if_neg (fun h => hc h.1)]

theorem replaceAll_two_miss (p x : Char) (rep : List Char) {y : Char} (l : List Char)
    (hy : y ≠ x) :
    replaceAll p [x] rep (p :: y :: l) = p :: replaceAll p [x] rep (y :: l) := by
  rw [replaceAll, if_neg]
  intro h
  have := h.2
  simp [List.isPrefixOf] at this
  exact hy this.symm

theorem replaceAll_two_hit (p x : Char) (rep : List Char) (l : List Char) :
    replaceAll p [x] rep (p :: x :: l) = rep ++ replaceAll p [x] rep l := by
  rw [replaceAll, if_pos ⟨rfl, by simp [List.isPrefixOf]⟩]
  simp

theorem replaceAll_single_hit (a : Char) (rep : List Char) (l : List Char) :
    replaceAll a [] rep (a :: l) = rep ++ replaceAll a [] rep l := by
  rw [replaceAll, if_pos ⟨rfl, by simp [List.isPrefixOf]⟩]
  simp

theorem replaceAll_two_last (p x : Char) (rep : List Char) :
    replaceAll p [x] rep [p] = [p] := by
  rw [replaceAll, if_neg, replaceAll_nil]
  intro h
  simpa [List.isPrefixOf] using h.2

/-- Character-wise expansion (the normal form of a single-character
`replace`). -/
def expandChar (f : Char → List Char) : List Char → List Char
  | [] => []
  | c :: cs => f c ++ expandChar f cs

theorem replaceAll_single_eq_expand (a : Char) (rep : List Char) (l : List Char) :
    replaceAll a [] rep l = expandChar (fun c => if c = a then rep else [c]) l := by
  induction l with
  | nil => rw [replaceAll_nil, expandChar]
  | cons c cs ih =>
    by_cases hc : c = a
    · subst hc
      rw [replaceAll_single_hit, expandChar, if_pos rfl, ih]
    · rw [replaceAll_cons_ne _ _ _ _ hc, expandChar, if_neg hc, ih, List.singleton_append]

theorem expandChar_append (f : Char → List Char) (l1 l2 : List Char) :
    expandChar f (l1 ++ l2) = expandChar f l1 ++ expandChar f l2 := by
  induction l1 with
  | nil => simp [expandChar]
  | cons c cs ih => simp [expandChar, ih]

theorem expandChar_comp (f g : Char → List Char) (l : List Char) :
    expandChar f (expandChar g l) = expandChar (fun c => expandChar f (g c)) l := by
  induction l with
  | nil => rfl
  | cons c cs ih => rw [expandChar, expandChar_append, ih, expandChar]

/-- The per-character effect of `_escape_payload`. -/
def escChar (c : Char) : List Char :=
  if c = '\\' then ['\\', '\\'] else if c = '\n' then ['\\', 'n']
  else if c = '\r' then ['\\', 'r'] else if c = '\t' then ['\\', 't'] else [c]

theorem escapePayload_eq_expand (m : List Char) :
    escapePayload m = expandChar escChar m := by
  unfold escapePayload
  rw [replaceAll_single_eq_expand, replaceAll_single_eq_expand,
    replaceAll_single_eq_expand, replaceAll_single_eq_expand,
    expandChar_comp, expandChar_comp, expandChar_comp]
  congr 1
  funext c
  by_cases h1 : c = '\\'
  · subst h1; decide
  · by_cases h2 : c = '\n'
    · subst h2; decide
    · by_cases h3 : c = '\r'
      · subst h3; decide
      · by_cases h4 : c = '\t'
        · subst h4; decide
        · simp [escChar, expandChar, h1, h2, h3, h4]

/-- Claim C6 (amended): the outbound escaping and the inbound sanitization
are mutually inverse on every ASCII message containing neither a backslash
nor a NUL character; for backslash the pair is not inverse (see the
counterexample), because `_sanitize_payload` has no rule turning `\\\\` back
into a single backslash. -/
theorem escape_then_sanitize_recovers_backslash_free (m : List Char)
    (hm : ∀ c ∈ m, c ≠ '\\' ∧ c ≠ '\x00') :
    sanitizePayload (escapePayload m) = m := by
  rw [escapePayload_eq_expand]
  induction m with
  | nil =>
    simp [expandChar, sanitizePayload, replaceAll_nil]
  | cons c cs ih =>
    have hc := hm c (List.mem_cons_self c cs)
    have hcs := fun x hx => hm x (List.mem_cons_of_mem c hx)
    have htail := ih hcs
    by_cases h2 : c = '\n'
    · subst h2
      show sanitizePayload (escChar '\n' ++ expandChar escChar cs) = _
      have hesc : escChar '\n' = ['\\', 'n'] := by decide
      rw [hesc]
      unfold sanitizePayload
      rw [List.cons_append, List.cons_append, List.nil_append,
        replaceAll_two_hit '\\' 'n' ['\n'],
        List.singleton_append,
        replaceAll_cons_ne '\\' ['r'] ['\r'] _ (by decide),
        replaceAll_cons_ne '\\' ['t'] ['\t'] _ (by decide),
        replaceAll_cons_ne '\\' ['0'] [] _ (by decide),
        replaceAll_cons_ne '\x00' [] [] _ (by decide)]
      exact congrArg (List.cons '\n') htail
    · by_cases h3 : c = '\r'
      · subst h3
        show sanitizePayload (escChar '\r' ++ expandChar escChar cs) = _
        have hesc : escChar '\r' = ['\\', 'r'] := by decide
        rw [hesc]
        unfold sanitizePayload
        rw [List.cons_append, List.cons_append, List.nil_append,
          replaceAll_two_miss '\\' 'n' ['\n'] _ (by decide),
          replaceAll_cons_ne '\\' ['n'] ['\n'] _ (by decide),
          replaceAll_two_hit '\\' 'r' ['\r'],
          List.singleton_append,
          replaceAll_cons_ne '\\' ['t'] ['\t'] _ (by decide),
          replaceAll_cons_ne '\\' ['0'] [] _ (by decide),
          replaceAll_cons_ne '\x00' [] [] _ (by decide)]
        exact congrArg (List.cons '\r') htail
      · by_cases h4 : c = '\t'
        · subst h4
          show sanitizePayload (escChar '\t' ++ expandChar escChar cs) = _
          have hesc : escChar '\t' = ['\\', 't'] := by decide
          rw [hesc]
          unfold sanitizePayload
          rw [List.cons_append, List.cons_append, List.nil_append,
            replaceAll_two_miss '\\' 'n' ['\n'] _ (by decide),
            replaceAll_cons_ne '\\' ['n'] ['\n'] _ (by decide),
            replaceAll_two_miss '\\' 'r' ['\r'] _ (by decide),
            replaceAll_cons_ne '\\' ['r'] ['\r'] _ (by decide),
            replaceAll_two_hit '\\' 't' ['\t'],
            List.singleton_append,
            replaceAll_cons_ne '\\' ['0'] [] _ (by decide),
            replaceAll_cons_ne '\x00' [] [] _ (by decide)]
          exact congrArg (List.cons '\t') htail
        · show sanitizePayload (escChar c ++ expandChar escChar cs) = _
          have hesc : escChar c = [c] := by
            simp [escChar, hc.1, h2, h3, h4]
          rw [hesc, List.singleton_append]
          unfold sanitizePayload
          rw [replaceAll_cons_ne '\\' ['n'] ['\n'] _ hc.1,
            replaceAll_cons_ne '\\' ['r'] ['\r'] _ hc.1,
            replaceAll_cons_ne '\\' ['t'] ['\t'] _ hc.1,
            replaceAll_cons_ne '\\' ['0'] [] _ hc.1,
            replaceAll_cons_ne '\x00' [] [] _ hc.2]
          exact congrArg (List.cons c) htail

/-- Counterexample to C6 as stated: a message consisting of one backslash is
escaped to two backslashes, which sanitization leaves as two backslashes —
the transforms are not mutually inverse on the escaped backslash. -/
theorem escape_then_sanitize_not_inverse_on_backslash :
    sanitizePayload (escapePayload ['\\']) = ['\\', '\\'] ∧
    sanitizePayload (escapePayload ['\\']) ≠ ['\\'] := by
  have h1 : escapePayload ['\\'] = ['\\', '\\'] := by
    rw [escapePayload_eq_expand]
    decide
  have h2 : sanitizePayload ['\\', '\\'] = ['\\', '\\'] := by
    unfold sanitizePayload
    rw [replaceAll_two_miss '\\' 'n' ['\n'] _ (by decide), replaceAll_two_last '\\' 'n' ['\n'],
      replaceAll_two_miss '\\' 'r' ['\r'] _ (by decide), replaceAll_two_last '\\' 'r' ['\r'],
      replaceAll_two_miss '\\' 't' ['\t'] _ (by decide), replaceAll_two_last '\\' 't' ['\t'],
      replaceAll_two_miss '\\' '0' [] _ (by decide), replaceAll_two_last '\\' '0' [],
      replaceAll_cons_ne '\x00' [] [] _ (by decide),
      replaceAll_cons_ne '\x00' [] [] _ (by decide), replaceAll_nil]
  rw [h1, h2]
  exact ⟨rfl, by decide⟩

/-- Witness for the amended C6 at a concrete message with escaped control
characters. -/
theorem escape_then_sanitize_recovers_backslash_free_witness :
    (∀ c ∈ ['a', '\n', 'b', '\t'], c ≠ '\\' ∧ c ≠ '\x00') ∧
    sanitizePayload (escapePayload ['a', '\n', 'b', '\t']) = ['a', '\n', 'b', '\t'] :=
  ⟨by decide, escape_then_sanitize_recovers_backslash_free ['a', '\n', 'b', '\t']
    (by decide)⟩

/-! ### Pending-ack queue lemmas (claim C3) -/

theorem dictGet_enqueuePending_self (dest ts : String)
    (q : List (String × List String)) :
    dictGet dest (enqueuePending dest ts q) =
      some ((dictGet dest q).getD [] ++ [ts]) := by
  induction q with
  | nil => simp [enqueuePending, dictGet]
  | cons head rest ih =>
    obtain ⟨d, qq⟩ := head
    by_cases hd : d = dest
    · subst hd
      simp [enqueuePending, dictGet]
    · simp [enqueuePending, dictGet, hd, ih]

theorem dictGet_enqueuePending_ne {D dest : String} (hne : D ≠ dest) (ts : String)
    (q : List (String × List String)) :
    dictGet D (enqueuePending dest ts q) = dictGet D q := by
  induction q with
  | nil =>
    rw [enqueuePending, dictGet, dictGet, if_neg (fun h => hne h.symm)]
    rfl
  | cons head rest ih =>
    obtain ⟨d, qq⟩ := head
    by_cases hd : d = dest
    · subst hd
      rw [enqueuePending, if_pos rfl, dictGet, dictGet,
        if_neg (fun h => hne h.symm), if_neg (fun h => hne h.symm)]
    · rw [enqueuePending, if_neg hd, dictGet, dictGet]
      by_cases hD : d = D
      · rw [if_pos hD, if_pos hD]
      · rw [if_neg hD, if_neg hD]
        exact ih

theorem enqueuePending_keys (dest ts : String) (q : List (String × List String)) :
    ((enqueuePending dest ts q).map Prod.fst = q.map Prod.fst ∧ dest ∈ q.map Prod.fst) ∨
    (enqueuePending dest ts q).map Prod.fst = q.map Prod.fst ++ [dest] := by
  induction q with
  | nil => right; simp [enqueuePending]
  | cons head rest ih =>
    obtain ⟨d, qq⟩ := head
    by_cases hd : d = dest
    · subst hd
      left
      simp [enqueuePending]
    · rcases ih with ⟨he, hm⟩ | he
      · left
        simp [enqueuePending, hd, he, hm]
      · right
        simp [enqueuePending, hd, he]

theorem enqueuePending_nodup (dest ts : String) {q : List (String × List String)}
    (hnd : (q.map Prod.fst).Nodup) :
    ((enqueuePending dest ts q).map Prod.fst).Nodup := by
  induction q with
  | nil => simp [enqueuePending]
  | cons head rest ih =>
    obtain ⟨d, qq⟩ := head
    simp only [List.map_cons, List.nodup_cons] at hnd
    by_cases hd : d = dest
    · subst hd
      rw [enqueuePending, if_pos rfl]
      simp only [List.map_cons, List.nodup_cons]
      exact hnd
    · rw [enqueuePending, if_neg hd]
      simp only [List.map_cons, List.nodup_cons]
      refine ⟨?_, ih hnd.2⟩
      rcases enqueuePending_keys dest ts rest with ⟨he, _⟩ | he
      · rw [he]; exact hnd.1
      · rw [he]
        simp only [List.mem_append, List.mem_singleton, not_or]
        exact ⟨hnd.1, hd⟩

theorem handleAck_other (e : Engine) {mac D : String} (success : Bool)
    (hne : mac ≠ D) :
    dictGet D (e.handleAckUpdate mac success).pendingAcks = dictGet D e.pendingAcks ∧
    (e.handleAckUpdate mac success).ackEvents.filter (fun ev => ev.1 = D) =
      e.ackEvents.filter (fun ev => ev.1 = D) ∧
    ((e.pendingAcks.map Prod.fst).Nodup →
      ((e.handleAckUpdate mac success).pendingAcks.map Prod.fst).Nodup) := by
  cases hget : dictGet mac e.pendingAcks with
  | none =>
    simp only [Engine.handleAckUpdate, hget]
    exact ⟨trivial, trivial, id⟩
  | some q =>
    cases q with
    | nil =>
      simp only [Engine.handleAckUpdate, hget]
      exact ⟨trivial, trivial, id⟩
    | cons t rest =>
      simp only [Engine.handleAckUpdate, hget]
      by_cases ht : t = ""
      · subst ht
        rw [if_pos rfl]
        refine ⟨?_, by simp, ?_⟩
        · by_cases hr : rest = []
          · simp only [hr, if_pos rfl]
            exact dictGet_dictRemove_ne hne _
          · simp only [hr, if_neg hr]
            exact dictGet_dictSet_ne hne _ _
        · intro hnd
          by_cases hr : rest = []
          · simp only [hr, if_pos rfl]
            exact dictKeys_dictRemove_nodup _ hnd
          · simp only [hr, if_neg hr]
            exact (dictKeys_dictSet_nodup _ _ hnd).1
      · rw [if_neg ht]
        cases success with
        | true =>
          simp only [if_true]
          refine ⟨?_, ?_, ?_⟩
          · by_cases hr : rest = []
            · simp only [hr, if_pos rfl]
              exact dictGet_dictRemove_ne hne _
            · simp only [hr, if_neg hr]
              exact dictGet_dictSet_ne hne _ _
          · rw [List.filter_append]
            simp [hne]
          · intro hnd
            by_cases hr : rest = []
            · simp only [hr, if_pos rfl]
              exact dictKeys_dictRemove_nodup _ hnd
            · simp only [hr, if_neg hr]
              exact (dictKeys_dictSet_nodup _ _ hnd).1
        | false =>
          simp only [Bool.false_eq_true, if_false]
          refine ⟨?_, by simp, ?_⟩
          · by_cases hr : rest = []
            · simp only [hr, if_pos rfl]
              exact dictGet_dictRemove_ne hne _
            · simp only [hr, if_neg hr]
              exact dictGet_dictSet_ne hne _ _
          · intro hnd
            by_cases hr : rest = []
            · simp only [hr, if_pos rfl]
              exact dictKeys_dictRemove_nodup _ hnd
            · simp only [hr, if_neg hr]
              exact (dictKeys_dictSet_nodup _ _ hnd).1

theorem handleAck_success_pop (e : Engine) {D : String} {t : String}
    {rest : List String} (hget : dictGet D e.pendingAcks = some (t :: rest))
    (ht : t ≠ "") (hnd : (e.pendingAcks.map Prod.fst).Nodup) :
    (e.handleAckUpdate D true).ackEvents = e.ackEvents ++ [(D, t)] ∧
    dictGet D (e.handleAckUpdate D true).pendingAcks =
      (if rest = [] then none else some rest) ∧
    ((e.handleAckUpdate D true).pendingAcks.map Prod.fst).Nodup := by
  simp only [Engine.handleAckUpdate, hget]
  rw [if_neg ht]
  simp only [if_true]
  refine ⟨by simp, ?_, ?_⟩
  · by_cases hr : rest = []
    · simp only [hr, if_pos rfl]
      exact dictGet_dictRemove_self _ hnd
    · simp only [hr, if_neg hr]
      exact dictGet_dictSet_self _ _ _
  · by_cases hr : rest = []
    · simp only [hr, if_pos rfl]
      exact dictKeys_dictRemove_nodup _ hnd
    · simp only [hr, if_neg hr]
      exact (dictKeys_dictSet_nodup _ _ hnd).1

/-- Driver: feed a list of decoded ack events `(mac, success)` to the
engine, as the reader loop does. -/
def Engine.runAcks : Engine → List (String × Bool) → Engine
  | e, [] => e
  | e, (mac, success) :: rest => (e.handleAckUpdate mac success).runAcks rest

/-- Driver: send a list of `(message, timestamp)` pairs to one destination,
stopping at the first rejection. -/
def Engine.sendAll : Engine → String → List (String × DateTime) →
    Except String Unit × Engine
  | e, _, [] => (.ok (), e)
  | e, dest, (msg, ts) :: rest =>
    match e.sendMessage dest msg ts with
    | (.error err, e') => (.error err, e')
    | (.ok (), e') => e'.sendAll dest rest

/-- The FIFO correlation induction: if `D`'s queue holds `L`, and the event
list contains exactly `|L|` acks for `D`, all successes, then the ack
callbacks for `D` fire with exactly `L` in order — regardless of the
interleaved acks for other destinations — and `D`'s queue entry is gone at
the end. -/
theorem runAcks_fifo (es : List (String × Bool)) :
    ∀ (e : Engine) (L : List String) (D : String),
      (e.pendingAcks.map Prod.fst).Nodup →
      dictGet D e.pendingAcks = (if L = [] then none else some L) →
      (∀ t ∈ L, t ≠ "") →
      (es.filter (fun ev => ev.1 = D)).length = L.length →
      (∀ ev ∈ es, ev.1 = D → ev.2 = true) →
      (e.runAcks es).ackEvents.filter (fun ev => ev.1 = D) =
        e.ackEvents.filter (fun ev => ev.1 = D) ++ L.map (fun t => (D, t)) ∧
      dictGet D (e.runAcks es).pendingAcks = none := by
  induction es with
  | nil =>
    intro e L D hnd hget hne hcount hsucc
    simp only [List.filter_nil, List.length_nil] at hcount
    have hL : L = [] := List.eq_nil_of_length_eq_zero hcount.symm
    subst hL
    rw [if_pos rfl] at hget
    exact ⟨by simp [Engine.runAcks], hget⟩
  | cons ev rest ih =>
    obtain ⟨m, s⟩ := ev
    intro e L D hnd hget hne hcount hsucc
    by_cases hm : m = D
    · subst hm
      have hs : s = true := hsucc (m, s) (List.mem_cons_self _ _) rfl
      subst hs
      have hLne : L ≠ [] := by
        intro h0
        subst h0
        simp at hcount
      obtain ⟨t, L', rfl⟩ : ∃ t L', L = t :: L' := by
        cases L with
        | nil => exact absurd rfl hLne
        | cons a b => exact ⟨a, b, rfl⟩
      rw [if_neg (List.cons_ne_nil t L')] at hget
      have ht : t ≠ "" := hne t (List.mem_cons_self _ _)
      obtain ⟨hev, hq, hnd'⟩ := handleAck_success_pop e hget ht hnd
      have hcount' : (rest.filter (fun ev => ev.1 = m)).length = L'.length := by
        simp only [List.filter_cons, decide_eq_true_eq, if_true] at hcount
        simpa using hcount
      obtain ⟨ihev, ihq⟩ := ih (e.handleAckUpdate m true) L' m hnd' hq
        (fun x hx => hne x (List.mem_cons_of_mem _ hx)) hcount'
        (fun x hx hxd => hsucc x (List.mem_cons_of_mem _ hx) hxd)
      refine ⟨?_, ihq⟩
      show ((e.handleAckUpdate m true).runAcks rest).ackEvents.filter _ = _
      rw [ihev, hev, List.filter_append]
      simp [List.map_cons]
    · have hq := handleAck_other e s hm
      have hcount' : (rest.filter (fun ev => ev.1 = D)).length = L.length := by
        simp only [List.filter_cons, decide_eq_true_eq] at hcount
        rw [if_neg hm] at hcount
        exact hcount
      obtain ⟨ihev, ihq⟩ := ih (e.handleAckUpdate m s) L D (hq.2.2 hnd)
        (hq.1.trans hget) hne hcount'
        (fun x hx hxd => hsucc x (List.mem_cons_of_mem _ hx) hxd)
      refine ⟨?_, ihq⟩
      show ((e.handleAckUpdate m s).runAcks rest).ackEvents.filter _ = _
      rw [ihev, hq.2.1]

theorem pyUpper_eq_empty_iff (s : String) : pyUpper s = "" ↔ s = "" := by
  constructor
  · intro hs
    apply String.ext
    have := congrArg String.data hs
    simpa [pyUpper] using this
  · intro hs
    subst hs
    rfl

theorem formatTimestamp_ne_empty (dt : DateTime) : formatTimestamp dt ≠ "" := by
  intro h
  have := congrArg String.data h
  simp [formatTimestamp, formatTimestampChars] at this

theorem sendMessage_ok (e : Engine) (dest msg : String) (ts : DateTime)
    (hs : e.started = true) (hd : pyStrip dest ≠ "")
    (hlen : msg.length + 1 ≤ MAX_PAYLOAD) (hascii : msg.data.all isAsciiChar = true) :
    ∃ w, e.sendMessage dest msg ts =
      (.ok (),
        { e with
            written := e.written ++ [w],
            pendingAcks := enqueuePending (pyUpper (pyStrip dest))
              (formatTimestamp ts) e.pendingAcks }) := by
  refine ⟨(['m', '['] ++ escapePayload msg.data ++ ['\x00', ','] ++
      (pyUpper (pyStrip dest)).data ++ [']']) ++ ['\n'], ?_⟩
  simp only [Engine.sendMessage, hs]
  rw [if_neg (by simp), if_neg (fun hc => hd ((pyUpper_eq_empty_iff _).mp hc)),
    if_neg (by omega), if_neg (by simp [hascii])]

theorem sendAll_ok (msgs : List (String × DateTime)) :
    ∀ (e : Engine) (dest : String), e.started = true → pyStrip dest ≠ "" →
      (∀ p ∈ msgs, p.1.length + 1 ≤ MAX_PAYLOAD ∧ p.1.data.all isAsciiChar = true) →
      ∃ e', e.sendAll dest msgs = (.ok (), e') ∧
        e'.pendingAcks = msgs.foldl
          (fun q p => enqueuePending (pyUpper (pyStrip dest)) (formatTimestamp p.2) q)
          e.pendingAcks ∧
        e'.ackEvents = e.ackEvents ∧ e'.started = e.started := by
  induction msgs with
  | nil =>
    intro e dest _ _ _
    exact ⟨e, rfl, rfl, rfl, rfl⟩
  | cons p rest ih =>
    obtain ⟨msg, ts⟩ := p
    intro e dest hs hd hvalid
    have hv := hvalid (msg, ts) (List.mem_cons_self _ _)
    obtain ⟨w, hw⟩ := sendMessage_ok e dest msg ts hs hd hv.1 hv.2
    obtain ⟨e', he', hq, hev, hst⟩ := ih
      { e with
          written := e.written ++ [w],
          pendingAcks := enqueuePending (pyUpper (pyStrip dest)) (formatTimestamp ts)
            e.pendingAcks }
      dest hs hd (fun x hx => hvalid x (List.mem_cons_of_mem _ hx))
    refine ⟨e', ?_, ?_, hev, hst⟩
    · show (match e.sendMessage dest msg ts with
        | (Except.error err, e') => (Except.error err, e')
        | (Except.ok (), e') => e'.sendAll dest rest) = _
      rw [hw]
      exact he'
    · rw [hq]
      simp

theorem dictGet_foldl_enqueue (tss : List String) :
    ∀ (q : List (String × List String)) (D : String),
      dictGet D (tss.foldl (fun acc t => enqueuePending D t acc) q) =
        (if tss = [] then dictGet D q else some ((dictGet D q).getD [] ++ tss)) := by
  induction tss with
  | nil => intro q D; simp
  | cons t ts ih =>
    intro q D
    simp only [List.foldl_cons]
    rw [ih]
    by_cases hts : ts = []
    · subst hts
      rw [if_pos rfl, if_neg (List.cons_ne_nil t [])]
      rw [dictGet_enqueuePending_self]
    · rw [if_neg hts, if_neg (List.cons_ne_nil t ts)]
      rw [dictGet_enqueuePending_self]
      simp

theorem foldl_enqueue_nodup (tss : List String) :
    ∀ (q : List (String × List String)) (D : String), (q.map Prod.fst).Nodup →
      ((tss.foldl (fun acc t => enqueuePending D t acc) q).map Prod.fst).Nodup := by
  induction tss with
  | nil => intro q D h; exact h
  | cons t ts ih =>
    intro q D h
    simp only [List.foldl_cons]
    exact ih _ _ (enqueuePending_nodup _ _ h)

set_option maxHeartbeats 1000000 in
/-- Claim C3: every accepted `send_message` appends its formatted timestamp
to the destination's FIFO pending-ack queue, and each success ack for that
destination pops exactly the oldest entry and notifies the ack subscribers
with it; hence any number of sends to destination `D` followed by that many
success acks for `D` fires the ack callbacks with the timestamps in send
order, regardless of interleaved acks for other destinations, and `D`'s
queue entry is removed from the queue map once it empties. -/
theorem pending_ack_fifo_per_destination (e : Engine) (dest : String)
    (msgs : List (String × DateTime)) (es : List (String × Bool))
    (hstart : e.started = true) (hdest : pyStrip dest ≠ "")
    (hvalid : ∀ p ∈ msgs, p.1.length + 1 ≤ MAX_PAYLOAD ∧ p.1.data.all isAsciiChar = true)
    (hnd : (e.pendingAcks.map Prod.fst).Nodup)
    (hempty : dictGet (pyUpper (pyStrip dest)) e.pendingAcks = none)
    (hcount : (es.filter (fun ev => ev.1 = pyUpper (pyStrip dest))).length = msgs.length)
    (hsucc : ∀ ev ∈ es, ev.1 = pyUpper (pyStrip dest) → ev.2 = true) :
    ∃ e', e.sendAll dest msgs = (.ok (), e') ∧
      dictGet (pyUpper (pyStrip dest)) e'.pendingAcks =
        (if msgs = [] then none
         else some (msgs.map (fun p => formatTimestamp p.2))) ∧
      (e'.runAcks es).ackEvents.filter (fun ev => ev.1 = pyUpper (pyStrip dest)) =
        e.ackEvents.filter (fun ev => ev.1 = pyUpper (pyStrip dest)) ++
          msgs.map (fun p => (pyUpper (pyStrip dest), formatTimestamp p.2)) ∧
      dictGet (pyUpper (pyStrip dest)) (e'.runAcks es).pendingAcks = none := by
  obtain ⟨e', he', hq, hev, hst⟩ := sendAll_ok msgs e dest hstart hdest hvalid
  have hfold : e'.pendingAcks =
      (msgs.map (fun p => formatTimestamp p.2)).foldl
        (fun acc t => enqueuePending (pyUpper (pyStrip dest)) t acc) e.pendingAcks := by
    rw [hq, List.foldl_map]
  have hqD : dictGet (pyUpper (pyStrip dest)) e'.pendingAcks =
      (if msgs = [] then none else some (msgs.map (fun p => formatTimestamp p.2))) := by
    rw [hfold, dictGet_foldl_enqueue]
    by_cases hm : msgs = []
    · subst hm
      simp [hempty]
    · rw [if_neg (by simpa using hm), if_neg hm, hempty]
      simp
  have hnd' : (e'.pendingAcks.map Prod.fst).Nodup := by
    rw [hfold]
    exact foldl_enqueue_nodup _ _ _ hnd
  have hne : ∀ t ∈ msgs.map (fun p => formatTimestamp p.2), t ≠ "" := by
    intro t ht
    obtain ⟨p, _, rfl⟩ := List.mem_map.mp ht
    exact formatTimestamp_ne_empty _
  have harg1 : dictGet (pyUpper (pyStrip dest)) e'.pendingAcks =
      (if msgs.map (fun p => formatTimestamp p.2) = [] then none
       else some (msgs.map (fun p => formatTimestamp p.2))) := by
    rw [hqD]
    by_cases hm : msgs = [] <;> simp [hm]
  have harg2 : (es.filter (fun ev => ev.1 = pyUpper (pyStrip dest))).length =
      (msgs.map (fun p => formatTimestamp p.2)).length := by
    simpa using hcount
  have step1 := runAcks_fifo es e' (msgs.map (fun p => formatTimestamp p.2))
    (pyUpper (pyStrip dest))
  have step2 := step1 hnd'
  have step3 := step2 harg1
  have step4 := step3 hne
  have step5 := step4 harg2
  obtain ⟨hfifo, hgone⟩ := step5 hsucc
  refine ⟨e', he', hqD, ?_, hgone⟩
  rw [hfifo, hev, List.map_map]
  rfl

def c3Engine : Engine :=
  { started := true, pendingAcks := [], written := [], ackEvents := [], logs := [] }

def c3Msgs : List (String × DateTime) :=
  [("one", ⟨2025, 1, 1, 0, 0, 1, 0⟩), ("two", ⟨2025, 1, 1, 0, 0, 2, 0⟩),
   ("three", ⟨2025, 1, 1, 0, 0, 3, 0⟩)]

def c3Events : List (String × Bool) :=
  [("AB", true), ("CD", false), ("AB", true), ("CD", true), ("AB", true)]

/-- Witness for C3: three sends to `AB` confirmed in order despite
interleaved acks for `CD`. -/
theorem pending_ack_fifo_per_destination_witness :
    ∃ e', c3Engine.sendAll "ab" c3Msgs = (.ok (), e') ∧
      dictGet (pyUpper (pyStrip "ab")) e'.pendingAcks =
        (if c3Msgs = [] then none
         else some (c3Msgs.map (fun p => formatTimestamp p.2))) ∧
      (e'.runAcks c3Events).ackEvents.filter
          (fun ev => ev.1 = pyUpper (pyStrip "ab")) =
        c3Engine.ackEvents.filter (fun ev => ev.1 = pyUpper (pyStrip "ab")) ++
          c3Msgs.map (fun p => (pyUpper (pyStrip "ab"), formatTimestamp p.2)) ∧
      dictGet (pyUpper (pyStrip "ab")) (e'.runAcks c3Events).pendingAcks = none :=
  pending_ack_fifo_per_destination c3Engine "ab" c3Msgs c3Events rfl (by decide)
    (by decide) (by decide) (by decide) (by decide) (by decide)

/-! ### Legacy loading (claim C8) -/

/-- The records produced for a run of legacy (bare-string) payload entries,
with rid allocator `rid` and origin counter `c`. -/
def legacyRecords (isSent : Bool) : Nat → Nat → List String → List MessageRecord
  | _, _, [] => []
  | rid, c, s :: rest =>
    ⟨rid, legacyTimestamp c, s, if isSent then some ACK_TRUE else none, none⟩ ::
      legacyRecords isSent (rid + 1) (c + 1) rest

theorem msgsFromPayload_legacy (isSent : Bool) (l : List String) :
    ∀ (rid : Nat) (lc : LegacyCounters),
      msgsFromPayload isSent (l.map MsgPayload.legacy) rid lc =
        .ok (legacyRecords isSent rid (if isSent then lc.sent else lc.recv) l,
          rid + l.length,
          if isSent then ⟨lc.sent + l.length, lc.recv⟩
          else ⟨lc.sent, lc.recv + l.length⟩) := by
  induction l with
  | nil =>
    intro rid lc
    cases isSent <;> simp [msgsFromPayload, legacyRecords]
  | cons s rest ih =>
    intro rid lc
    simp only [List.map_cons, msgsFromPayload, MessageRecord.fromPayload,
      legacyTimestampFor]
    cases isSent with
    | true =>
      simp only [if_true, ih (rid + 1) ⟨lc.sent + 1, lc.recv⟩]
      simp [legacyRecords]
      all_goals omega
    | false =>
      simp only [Bool.false_eq_true, if_false, ih (rid + 1) ⟨lc.sent, lc.recv + 1⟩]
      simp [legacyRecords]
      all_goals omega

theorem legacyRecords_length (isSent : Bool) (l : List String) :
    ∀ rid c, (legacyRecords isSent rid c l).length = l.length := by
  induction l with
  | nil => intro rid c; rfl
  | cons s rest ih => intro rid c; simp [legacyRecords, ih]

theorem legacyRecords_get? (isSent : Bool) (l : List String) :
    ∀ rid c (i : Nat) (hi : i < l.length),
      (legacyRecords isSent rid c l).get? i =
        some ⟨rid + i, legacyTimestamp (c + i), l.get ⟨i, hi⟩,
          if isSent then some ACK_TRUE else none, none⟩ := by
  induction l with
  | nil => intro rid c i hi; exact absurd hi (by simp)
  | cons s rest ih =>
    intro rid c i hi
    cases i with
    | zero => simp [legacyRecords]
    | succ j =>
      have hj : j < rest.length := by simpa using hi
      have e1 : rid + (j + 1) = rid + 1 + j := by omega
      have e2 : c + (j + 1) = c + 1 + j := by omega
      simp only [legacyRecords, List.get?_cons_succ, List.get_cons_succ]
      rw [e1, e2, ih (rid + 1) (c + 1) j hj]

theorem legacyRecords_no_seq (isSent : Bool) (l : List String) :
    ∀ rid c, ∀ r ∈ legacyRecords isSent rid c l, r.seq = none := by
  induction l with
  | nil => intro rid c r hr; simp [legacyRecords] at hr
  | cons s rest ih =>
    intro rid c r hr
    rcases List.mem_cons.mp hr with he | he
    · rw [he]
    · exact ih _ _ r he

theorem indexRecords_no_seq (mac : String) (records : List MessageRecord)
    (hseq : ∀ r ∈ records, r.seq = none) :
    ∀ idx, indexRecords mac idx records = .ok idx := by
  induction records with
  | nil => intro idx; rfl
  | cons r rest ih =>
    intro idx
    rw [indexRecords, indexSequence, hseq r (List.mem_cons_self _ _)]
    exact ih (fun x hx => hseq x (List.mem_cons_of_mem _ hx)) idx

/-- Claim C8: loading a persisted conversation whose sent and received
entries are plain strings (the legacy form) succeeds; each legacy record is
assigned a synthetic timestamp strictly increasing in list order, the
synthesis counters starting at zero on every load (whatever their previous
values were); legacy sent records get ack status confirmed, legacy received
records get none, and neither carries a sequence number. -/
theorem legacy_load_synthesizes_increasing_timestamps (h : History)
    (mac mac' : String) (l1 l2 : List String)
    (hmac : normalizeMac mac = .ok mac')
    (hfile : h.file = some [⟨mac, l1.map MsgPayload.legacy, l2.map MsgPayload.legacy⟩]) :
    ∃ h' c, h.reload = (.ok (), h') ∧ h'.order = [mac'] ∧
      dictGet mac' h'.convs = some c ∧
      c.sent_messages.length = l1.length ∧ c.received_messages.length = l2.length ∧
      (∀ i (hi : i < l1.length),
        (c.sent_messages.get? i).map MessageRecord.fields =
          some ⟨legacyTimestamp i, l1.get ⟨i, hi⟩, some ACK_TRUE, none⟩) ∧
      (∀ i (hi : i < l2.length),
        (c.received_messages.get? i).map MessageRecord.fields =
          some ⟨legacyTimestamp i, l2.get ⟨i, hi⟩, none, none⟩) ∧
      (∀ i j ri rj, c.sent_messages.get? i = some ri →
        c.sent_messages.get? j = some rj → i < j → ri.timestamp.lt rj.timestamp) ∧
      (∀ i j ri rj, c.received_messages.get? i = some ri →
        c.received_messages.get? j = some rj → i < j → ri.timestamp.lt rj.timestamp) := by
  have hsent := msgsFromPayload_legacy true l1 h.nextRid ⟨0, 0⟩
  have hrecv := msgsFromPayload_legacy false l2 (h.nextRid + l1.length) ⟨0 + l1.length, 0⟩
  simp only [if_true] at hsent
  simp only [Bool.false_eq_true, if_false] at hrecv
  have hslen := legacyRecords_length true l1 h.nextRid 0
  have hrlen := legacyRecords_length false l2 (h.nextRid + l1.length) 0
  refine ⟨⟨[mac'],
      [(mac', ⟨mac', legacyRecords true h.nextRid 0 l1,
        legacyRecords false (h.nextRid + l1.length) 0 l2⟩)],
      [], 0, h.nextRid + l1.length + l2.length,
      ⟨0 + l1.length, 0 + l2.length⟩, h.file⟩,
    ⟨mac', legacyRecords true h.nextRid 0 l1,
      legacyRecords false (h.nextRid + l1.length) 0 l2⟩,
    ?_, ?_, ?_, ?_, ?_, ?_, ?_, ?_, ?_⟩
  · show h.reload = _
    have e1 : indexRecords mac' [] (legacyRecords true h.nextRid 0 l1) = .ok [] :=
      indexRecords_no_seq mac' (legacyRecords true h.nextRid 0 l1)
        (legacyRecords_no_seq true l1 h.nextRid 0) []
    have e2 : indexRecords mac' [] (legacyRecords false (h.nextRid + l1.length) 0 l2) =
        .ok [] :=
      indexRecords_no_seq mac' (legacyRecords false (h.nextRid + l1.length) 0 l2)
        (legacyRecords_no_seq false l2 (h.nextRid + l1.length) 0) []
    simp only [History.reload, hfile, reloadEntries, Conversation.fromDict, hmac, hsent,
      hrecv, registerConversationSequences, e1, e2, dictSet, maxKeys, List.nil_append]
  · rfl
  · simp [dictGet]
  · exact hslen
  · exact hrlen
  · intro i hi
    rw [legacyRecords_get? true l1 h.nextRid 0 i hi]
    simp [MessageRecord.fields]
  · intro i hi
    rw [legacyRecords_get? false l2 (h.nextRid + l1.length) 0 i hi]
    simp [MessageRecord.fields]
  · intro i j ri rj hri hrj hij
    have hi : i < l1.length := by
      have := List.get?_eq_some.mp hri
      obtain ⟨hlt, _⟩ := this
      rw [hslen] at hlt
      exact hlt
    have hj : j < l1.length := by
      have := List.get?_eq_some.mp hrj
      obtain ⟨hlt, _⟩ := this
      rw [hslen] at hlt
      exact hlt
    rw [legacyRecords_get? true l1 h.nextRid 0 i hi] at hri
    rw [legacyRecords_get? true l1 h.nextRid 0 j hj] at hrj
    have h1 := Option.some.inj hri
    have h2 := Option.some.inj hrj
    rw [← h1, ← h2]
    exact legacyTimestamp_strictMono (by omega)
  · intro i j ri rj hri hrj hij
    have hi : i < l2.length := by
      have := List.get?_eq_some.mp hri
      obtain ⟨hlt, _⟩ := this
      rw [hrlen] at hlt
      exact hlt
    have hj : j < l2.length := by
      have := List.get?_eq_some.mp hrj
      obtain ⟨hlt, _⟩ := this
      rw [hrlen] at hlt
      exact hlt
    rw [legacyRecords_get? false l2 (h.nextRid + l1.length) 0 i hi] at hri
    rw [legacyRecords_get? false l2 (h.nextRid + l1.length) 0 j hj] at hrj
    have h1 := Option.some.inj hri
    have h2 := Option.some.inj hrj
    rw [← h1, ← h2]
    exact legacyTimestamp_strictMono (by omega)

def c8Store : History :=
  { order := [], convs := [], seqIndex := [], seqOffset := 0, nextRid := 0,
    lc := ⟨7, 9⟩,
    file := some [⟨"aa", [.legacy "old one", .legacy "old two"], [.legacy "reply"]⟩] }

/-- Witness for C8 at a concrete legacy file (with stale nonzero counters
before the load). -/
theorem legacy_load_synthesizes_increasing_timestamps_witness :
    normalizeMac "aa" = .ok "AA" ∧
    c8Store.file =
      some [⟨"aa", ["old one", "old two"].map MsgPayload.legacy,
            ["reply"].map MsgPayload.legacy⟩] ∧
    ∃ h' c, c8Store.reload = (.ok (), h') ∧ h'.order = ["AA"] ∧
      dictGet "AA" h'.convs = some c ∧
      c.sent_messages.length = 2 ∧ c.received_messages.length = 1 ∧
      (∀ i (hi : i < (["old one", "old two"] : List String).length),
        (c.sent_messages.get? i).map MessageRecord.fields =
          some ⟨legacyTimestamp i, (["old one", "old two"] : List String).get ⟨i, hi⟩,
            some ACK_TRUE, none⟩) ∧
      (∀ i j ri rj, c.sent_messages.get? i = some ri →
        c.sent_messages.get? j = some rj → i < j →
          ri.timestamp.lt rj.timestamp) := by
  obtain ⟨h', c, h1, h2, h3, h4, h5, h6, h7, h8, h9⟩ :=
    legacy_load_synthesizes_increasing_timestamps c8Store "aa" "AA"
      ["old one", "old two"] ["reply"] rfl rfl
  exact ⟨rfl, rfl, h', c, h1, h2, h3, h4, h5, h6, h8⟩

/-! ### Frame lemmas for the store operations (claim C1) -/

theorem updateConv_frame (h : History) (mac : String) (f : Conversation → Conversation) :
    (h.updateConv mac f).seqIndex = h.seqIndex ∧
    (h.updateConv mac f).file = h.file ∧
    (h.updateConv mac f).order = h.order ∧
    (h.updateConv mac f).nextRid = h.nextRid := by
  unfold History.updateConv
  cases dictGet mac h.convs <;> exact ⟨rfl, rfl, rfl, rfl⟩

theorem updateRecord_frame (h : History) (mac : String) (rid : Nat)
    (f : MessageRecord → MessageRecord) :
    (h.updateRecord mac rid f).seqIndex = h.seqIndex ∧
    (h.updateRecord mac rid f).file = h.file := by
  unfold History.updateRecord
  exact ⟨(updateConv_frame _ _ _).1, (updateConv_frame _ _ _).2.1⟩

theorem ensureContact_of_mem (h : History) (mac : String) {c : Conversation}
    (hc : dictGet mac h.convs = some c) : h.ensureContact mac = h := by
  unfold History.ensureContact
  rw [hc]
  rfl

/-- Part 1 of C1: `set_sequence_for_message` on a sequence number already
held by a different record raises, but only after the target record's `seq`
field was overwritten and its stale index entry removed; the index entry for
the contested number still names the original record, and the file is not
rewritten. -/
theorem setSequence_duplicate_raises (h : History) (mac mac' : String)
    (ts : DateTime) (seq : Int) (macA : String) (ridA : Nat) (r : MessageRecord)
    (persist : Bool)
    (hn : normalizeMac mac = .ok mac')
    (hnd : (h.seqIndex.map Prod.fst).Nodup)
    (hidx : dictGet seq h.seqIndex = some (macA, ridA))
    (hfind : h.findSentRecord mac' ts = some r)
    (hrid : r.rid ≠ ridA)
    (hrseq : r.seq ≠ some seq) :
    ∃ msg h2, h.setSequenceForMessage mac ts seq persist = (.error msg, h2) ∧
      h2.findSentRecord mac' ts = some { r with seq := some seq } ∧
      dictGet seq h2.seqIndex = some (macA, ridA) ∧
      (∀ s0, r.seq = some s0 → dictGet s0 h2.seqIndex = none) ∧
      h2.file = h.file := by
  simp only [History.setSequenceForMessage, hn, hfind]
  rw [if_neg hrseq]
  cases hr0 : r.seq with
  | none =>
    simp only [ne_eq, not_true_eq_false, if_false]
    have hidx2 : (h.updateRecord mac' r.rid
        (fun r0 => { r0 with seq := some seq })).seqIndex = h.seqIndex :=
      (updateRecord_frame _ _ _ _).1
    simp only [indexSequence, hidx2, hidx]
    rw [if_pos (fun he => hrid he.symm)]
    refine ⟨_, _, rfl, ?_, ?_, ?_, ?_⟩
    · rw [findSentRecord_updateRecord h mac' r.rid
        (fun r0 => { r0 with seq := some seq }) ts (fun x => rfl), hfind]
      simp
    · rw [hidx2]
      exact hidx
    · intro s0 hs0
      exact absurd hs0 (by simp)
    · exact (updateRecord_frame _ _ _ _).2
  | some s0 =>
    have hs0seq : s0 ≠ seq := by
      intro he
      exact hrseq (by rw [hr0, he])
    simp only [ne_eq, reduceCtorEq, not_false_eq_true, if_true]
    have hremove : removeSequence h.seqIndex r = dictRemove s0 h.seqIndex := by
      simp only [removeSequence, hr0]
    have hidx2 : ({ h with seqIndex := removeSequence h.seqIndex r }.updateRecord mac'
        r.rid (fun r0 => { r0 with seq := some seq })).seqIndex =
        dictRemove s0 h.seqIndex := by
      rw [(updateRecord_frame _ _ _ _).1]
      exact hremove
    simp only [indexSequence, hidx2, dictGet_dictRemove_ne hs0seq, hidx]
    rw [if_pos (fun he => hrid he.symm)]
    refine ⟨_, _, rfl, ?_, ?_, ?_, ?_⟩
    · rw [findSentRecord_updateRecord _ mac' r.rid
        (fun r0 => { r0 with seq := some seq }) ts (fun x => rfl)]
      show (h.findSentRecord mac' ts).map _ = _
      rw [hfind]
      simp
    · rw [hidx2, dictGet_dictRemove_ne hs0seq]
      exact hidx
    · intro s1 hs1
      have he : s1 = s0 := (Option.some.inj hs1).symm
      subst he
      rw [hidx2]
      exact dictGet_dictRemove_self _ hnd
    · exact (updateRecord_frame _ _ _ _).2

theorem normalizeAckStatus_outstanding :
    normalizeAckStatus (.str ACK_OUTSTANDING) = .ok ACK_OUTSTANDING := rfl

/-- Part 2 of C1: `record_sent_message` with a sequence number already held by
another record appends the new record to the conversation BEFORE the index
step raises; the index and the file are untouched. -/
theorem recordSent_duplicate_raises (h0 : History) (mac mac' message : String)
    (S : Int) (macA : String) (ridA : Nat) (c0 : Conversation) (persist : Bool)
    (now : DateTime)
    (hn : normalizeMac mac = .ok mac')
    (hidx : dictGet S h0.seqIndex = some (macA, ridA))
    (hc0 : dictGet mac' h0.convs = some c0)
    (hrid : h0.nextRid ≠ ridA) :
    ∃ msg h2, h0.recordSentMessage mac message none none (some S) persist now =
        (.error msg, h2) ∧
      dictGet mac' h2.convs = some { c0 with
        sent_messages := c0.sent_messages ++
          [⟨h0.nextRid, now, message, some ACK_OUTSTANDING, some S⟩] } ∧
      h2.seqIndex = h0.seqIndex ∧
      h2.file = h0.file := by
  simp only [History.recordSentMessage, History.appendMessage, hn,
    ensureContact_of_mem h0 mac' hc0, normalizeAckStatus_outstanding, Except.map,
    Option.getD, History.updateConv, hc0, if_true]
  simp only [indexSequence, hidx]
  rw [if_pos (fun he => hrid he.symm)]
  exact ⟨_, _, rfl, by simp [dictGet_dictSet_self], rfl, rfl⟩

/-- Part 3 of C1: same for `record_received_message`. -/
theorem recordReceived_duplicate_raises (h0 : History) (mac mac' message : String)
    (S : Int) (macA : String) (ridA : Nat) (c0 : Conversation) (persist : Bool)
    (now : DateTime)
    (hn : normalizeMac mac = .ok mac')
    (hidx : dictGet S h0.seqIndex = some (macA, ridA))
    (hc0 : dictGet mac' h0.convs = some c0)
    (hrid : h0.nextRid ≠ ridA) :
    ∃ msg h2, h0.recordReceivedMessage mac message none (some S) persist now =
        (.error msg, h2) ∧
      dictGet mac' h2.convs = some { c0 with
        received_messages := c0.received_messages ++
          [⟨h0.nextRid, now, message, none, some S⟩] } ∧
      h2.seqIndex = h0.seqIndex ∧
      h2.file = h0.file := by
  simp only [History.recordReceivedMessage, History.appendMessage, hn,
    ensureContact_of_mem h0 mac' hc0, Option.getD, History.updateConv, hc0,
    if_false, Bool.false_eq_true, ite_false]
  simp only [indexSequence, hidx]
  rw [if_pos (fun he => hrid he.symm)]
  exact ⟨_, _, rfl, by simp [dictGet_dictSet_self], rfl, rfl⟩

/-- Part 4 of C1: `_index_sequence` itself — the step shared by every store
operation and by conversation registration during load — raises the
consistency error whenever the number is already held by a different record
identity. -/
theorem indexSequence_duplicate (idx : SeqIndex) (mac macA : String) (ridA : Nat)
    (r : MessageRecord) (s : Int)
    (hs : r.seq = some s)
    (hidx : dictGet s idx = some (macA, ridA))
    (hrid : r.rid ≠ ridA) :
    indexSequence idx mac r = .error ("Duplicate sequence number detected for " ++ mac) := by
  simp only [indexSequence, hs, hidx]
  rw [if_pos (fun he => hrid he.symm)]

/-- Claim C1 (amended): whenever sequence number S is already indexed for a
record A, assigning S to a different record B raises the duplicate-sequence
consistency error through every path — `set_sequence_for_message`,
`record_sent_message`/`record_received_message` with `seq=S`, and
`_index_sequence` during load registration — and afterwards the index still
maps S to A and the persisted file is untouched; but the in-memory state is
NOT unchanged: mutations preceding the index step survive the raise
(`set_sequence_for_message` leaves B's `seq` field overwritten with S and
B's stale index entry removed; the record operations leave the new record
appended to the conversation). -/
theorem sequence_collision_raises_after_partial_mutation :
    (∀ (h : History) (mac mac' : String) (ts : DateTime) (seq : Int)
        (macA : String) (ridA : Nat) (r : MessageRecord) (persist : Bool),
      normalizeMac mac = .ok mac' →
      (h.seqIndex.map Prod.fst).Nodup →
      dictGet seq h.seqIndex = some (macA, ridA) →
      h.findSentRecord mac' ts = some r →
      r.rid ≠ ridA →
      r.seq ≠ some seq →
      ∃ msg h2, h.setSequenceForMessage mac ts seq persist = (.error msg, h2) ∧
        h2.findSentRecord mac' ts = some { r with seq := some seq } ∧
        dictGet seq h2.seqIndex = some (macA, ridA) ∧
        (∀ s0, r.seq = some s0 → dictGet s0 h2.seqIndex = none) ∧
        h2.file = h.file) ∧
    (∀ (h0 : History) (mac mac' message : String) (S : Int) (macA : String)
        (ridA : Nat) (c0 : Conversation) (persist : Bool) (now : DateTime),
      normalizeMac mac = .ok mac' →
      dictGet S h0.seqIndex = some (macA, ridA) →
      dictGet mac' h0.convs = some c0 →
      h0.nextRid ≠ ridA →
      ∃ msg h2, h0.recordSentMessage mac message none none (some S) persist now =
          (.error msg, h2) ∧
        dictGet mac' h2.convs = some { c0 with
          sent_messages := c0.sent_messages ++
            [⟨h0.nextRid, now, message, some ACK_OUTSTANDING, some S⟩] } ∧
        h2.seqIndex = h0.seqIndex ∧
        h2.file = h0.file) ∧
    (∀ (h0 : History) (mac mac' message : String) (S : Int) (macA : String)
        (ridA : Nat) (c0 : Conversation) (persist : Bool) (now : DateTime),
      normalizeMac mac = .ok mac' →
      dictGet S h0.seqIndex = some (macA, ridA) →
      dictGet mac' h0.convs = some c0 →
      h0.nextRid ≠ ridA →
      ∃ msg h2, h0.recordReceivedMessage mac message none (some S) persist now =
          (.error msg, h2) ∧
        dictGet mac' h2.convs = some { c0 with
          received_messages := c0.received_messages ++
            [⟨h0.nextRid, now, message, none, some S⟩] } ∧
        h2.seqIndex = h0.seqIndex ∧
        h2.file = h0.file) ∧
    (∀ (idx : SeqIndex) (mac macA : String) (ridA : Nat) (r : MessageRecord)
        (s : Int),
      r.seq = some s →
      dictGet s idx = some (macA, ridA) →
      r.rid ≠ ridA →
      indexSequence idx mac r =
        .error ("Duplicate sequence number detected for " ++ mac)) :=
  ⟨fun h mac mac' ts seq macA ridA r persist hn hnd hidx hfind hrid hrseq =>
      setSequence_duplicate_raises h mac mac' ts seq macA ridA r persist
        hn hnd hidx hfind hrid hrseq,
   fun h0 mac mac' message S macA ridA c0 persist now hn hidx hc0 hrid =>
      recordSent_duplicate_raises h0 mac mac' message S macA ridA c0 persist now
        hn hidx hc0 hrid,
   fun h0 mac mac' message S macA ridA c0 persist now hn hidx hc0 hrid =>
      recordReceived_duplicate_raises h0 mac mac' message S macA ridA c0 persist
        now hn hidx hc0 hrid,
   fun idx mac macA ridA r s hs hidx hrid =>
      indexSequence_duplicate idx mac macA ridA r s hs hidx hrid⟩

def c1TsA : DateTime := ⟨2025, 1, 1, 0, 0, 0, 0⟩

def c1TsB : DateTime := ⟨2025, 1, 2, 0, 0, 0, 0⟩

def c1RecA : MessageRecord := ⟨0, c1TsA, "a", some ACK_TRUE, some 5⟩

def c1RecB : MessageRecord := ⟨1, c1TsB, "b", some ACK_OUTSTANDING, none⟩

def c1Conv : Conversation := ⟨"AA", [c1RecA, c1RecB], []⟩

def c1Store : History :=
  ⟨["AA"], [("AA", c1Conv)], [(5, "AA", 0)], 0, 2, ⟨0, 0⟩, none⟩

/-- Counterexample to claim C1 as stated: in a store where sequence 5 is
assigned to record A, `set_sequence_for_message` targeting a different
record B with sequence 5 raises the duplicate-sequence error, yet the
resulting store differs from the original — B's `seq` field was overwritten
before the raise, so the state is NOT unchanged after the failed attempt. -/
theorem set_sequence_duplicate_raise_mutates_state :
    (c1Store.setSequenceForMessage "AA" c1TsB 5 false).1 =
      .error ("Duplicate sequence number detected for " ++ "AA") ∧
    (c1Store.setSequenceForMessage "AA" c1TsB 5 false).2 ≠ c1Store :=
  ⟨rfl, by decide⟩

theorem sequence_collision_raises_after_partial_mutation_witness :
    (∃ msg h2, c1Store.setSequenceForMessage "AA" c1TsB 5 false =
        (.error msg, h2) ∧
      h2.findSentRecord "AA" c1TsB = some { c1RecB with seq := some 5 } ∧
      dictGet 5 h2.seqIndex = some ("AA", 0) ∧
      (∀ s0, c1RecB.seq = some s0 → dictGet s0 h2.seqIndex = none) ∧
      h2.file = c1Store.file) ∧
    (∃ msg h2, c1Store.recordSentMessage "AA" "x" none none (some 5) false c1TsA =
        (.error msg, h2) ∧
      dictGet "AA" h2.convs = some { c1Conv with
        sent_messages := c1Conv.sent_messages ++
          [⟨c1Store.nextRid, c1TsA, "x", some ACK_OUTSTANDING, some 5⟩] } ∧
      h2.seqIndex = c1Store.seqIndex ∧
      h2.file = c1Store.file) ∧
    (∃ msg h2, c1Store.recordReceivedMessage "AA" "y" none (some 5) false c1TsA =
        (.error msg, h2) ∧
      dictGet "AA" h2.convs = some { c1Conv with
        received_messages := c1Conv.received_messages ++
          [⟨c1Store.nextRid, c1TsA, "y", none, some 5⟩] } ∧
      h2.seqIndex = c1Store.seqIndex ∧
      h2.file = c1Store.file) ∧
    indexSequence c1Store.seqIndex "AA" { c1RecB with seq := some 5 } =
      .error ("Duplicate sequence number detected for " ++ "AA") :=
  ⟨sequence_collision_raises_after_partial_mutation.1 c1Store "AA" "AA" c1TsB 5
      "AA" 0 c1RecB false rfl (by decide) rfl rfl (by decide) (by decide),
   sequence_collision_raises_after_partial_mutation.2.1 c1Store "AA" "AA" "x" 5
      "AA" 0 c1Conv false c1TsA rfl rfl rfl (by decide),
   sequence_collision_raises_after_partial_mutation.2.2.1 c1Store "AA" "AA" "y" 5
      "AA" 0 c1Conv false c1TsA rfl rfl rfl (by decide),
   sequence_collision_raises_after_partial_mutation.2.2.2 c1Store.seqIndex "AA"
      "AA" 0 { c1RecB with seq := some 5 } 5 rfl rfl (by decide)⟩

/-! ### Sequence-offset remapping (claim C10) -/

/-- The raw sequence field a persisted message payload carries (`seq` key of
the object form; the legacy bare-string form has none). -/
def payloadSeq : MsgPayload → Option Int
  | .legacy _ => none
  | .obj o => o.seq

theorem mem_keys_dictSet {κ β : Type} [DecidableEq κ] (k s : κ) (v : β)
    (l : List (κ × β)) :
    s ∈ (dictSet k v l).map Prod.fst ↔ s = k ∨ s ∈ l.map Prod.fst := by
  induction l with
  | nil => simp [dictSet]
  | cons head rest ih =>
    obtain ⟨k', v'⟩ := head
    by_cases h2 : k' = k
    · subst h2
      rw [dictSet, if_pos rfl]
      simp only [List.map_cons, List.mem_cons]
      tauto
    · rw [dictSet, if_neg h2]
      simp only [List.map_cons, List.mem_cons, ih]
      tauto

theorem mem_keys_of_dictGet {κ β : Type} [DecidableEq κ] {k : κ}
    {l : List (κ × β)} {v : β} (h : dictGet k l = some v) :
    k ∈ l.map Prod.fst := by
  by_contra hmem
  rw [dictGet_not_mem hmem] at h
  exact Option.noConfusion h

theorem indexSequence_ok_keys {idx : SeqIndex} {mac : String} {r : MessageRecord}
    {idx' : SeqIndex} (h : indexSequence idx mac r = .ok idx') (s : Int) :
    s ∈ idx'.map Prod.fst ↔ s ∈ idx.map Prod.fst ∨ r.seq = some s := by
  cases hr : r.seq with
  | none =>
    simp only [indexSequence, hr] at h
    cases h
    simp
  | some t =>
    simp only [indexSequence, hr] at h
    cases hg : dictGet t idx with
    | some p =>
      obtain ⟨macA, ridA⟩ := p
      simp only [hg] at h
      by_cases hne : ridA ≠ r.rid
      · rw [if_pos hne] at h
        cases h
      · rw [if_neg hne] at h
        cases h
        rw [mem_keys_dictSet]
        constructor
        · rintro (rfl | hmem)
          · exact Or.inl (mem_keys_of_dictGet hg)
          · exact Or.inl hmem
        · rintro (hmem | hsome)
          · exact Or.inr hmem
          · exact Or.inl (Option.some.inj hsome).symm
    | none =>
      simp only [hg] at h
      cases h
      rw [mem_keys_dictSet]
      constructor
      · rintro (rfl | hmem)
        · exact Or.inr rfl
        · exact Or.inl hmem
      · rintro (hmem | hsome)
        · exact Or.inr hmem
        · exact Or.inl (Option.some.inj hsome).symm

theorem indexRecords_ok_keys (mac : String) (rs : List MessageRecord) :
    ∀ {idx idx' : SeqIndex}, indexRecords mac idx rs = .ok idx' → ∀ s : Int,
    (s ∈ idx'.map Prod.fst ↔ s ∈ idx.map Prod.fst ∨ ∃ r ∈ rs, r.seq = some s) := by
  induction rs with
  | nil =>
    intro idx idx' h s
    simp only [indexRecords] at h
    cases h
    simp
  | cons r rest ih =>
    intro idx idx' h s
    simp only [indexRecords] at h
    cases hstep : indexSequence idx mac r with
    | error e =>
      simp only [hstep] at h
      cases h
    | ok idx1 =>
      simp only [hstep] at h
      rw [ih h s, indexSequence_ok_keys hstep s]
      constructor
      · rintro ((hm | hr) | ⟨r', hr', hs⟩)
        · exact Or.inl hm
        · exact Or.inr ⟨r, List.mem_cons_self _ _, hr⟩
        · exact Or.inr ⟨r', List.mem_cons_of_mem _ hr', hs⟩
      · rintro (hm | ⟨r', hr', hs⟩)
        · exact Or.inl (Or.inl hm)
        · rcases List.mem_cons.mp hr' with rfl | hmem
          · exact Or.inl (Or.inr hs)
          · exact Or.inr ⟨r', hmem, hs⟩

theorem registerConversationSequences_ok_keys {idx idx' : SeqIndex}
    {c : Conversation} (h : registerConversationSequences idx c = .ok idx')
    (s : Int) :
    s ∈ idx'.map Prod.fst ↔ s ∈ idx.map Prod.fst ∨
      ∃ r ∈ c.sent_messages ++ c.received_messages, r.seq = some s := by
  simp only [registerConversationSequences] at h
  cases h1 : indexRecords c.mac idx c.sent_messages with
  | error e =>
    simp only [h1] at h
    cases h
  | ok idx1 =>
    simp only [h1] at h
    rw [indexRecords_ok_keys _ _ h s, indexRecords_ok_keys _ _ h1 s]
    constructor
    · rintro ((hm | ⟨r, hr, hs⟩) | ⟨r, hr, hs⟩)
      · exact Or.inl hm
      · exact Or.inr ⟨r, List.mem_append_left _ hr, hs⟩
      · exact Or.inr ⟨r, List.mem_append_right _ hr, hs⟩
    · rintro (hm | ⟨r, hr, hs⟩)
      · exact Or.inl (Or.inl hm)
      · rcases List.mem_append.mp hr with h2 | h2
        · exact Or.inl (Or.inr ⟨r, h2, hs⟩)
        · exact Or.inr ⟨r, h2, hs⟩

theorem bind_safeIntOfInt (o : Option Int) : o.bind safeIntOfInt = o := by
  cases o <;> rfl

theorem fromPayload_seq {p : MsgPayload} {isSent : Bool} {rid : Nat}
    {lc : LegacyCounters} {r : MessageRecord} {lc' : LegacyCounters}
    (h : MessageRecord.fromPayload p isSent rid lc = .ok (r, lc')) :
    r.seq = payloadSeq p := by
  cases p with
  | legacy s =>
    rcases hlt : legacyTimestampFor isSent lc with ⟨ts, lc2⟩
    simp only [MessageRecord.fromPayload, hlt] at h
    cases h
    rfl
  | obj o =>
    simp only [MessageRecord.fromPayload] at h
    cases hts : parseTimestamp o.timestamp with
    | error e =>
      simp only [hts] at h
      cases h
    | ok ts =>
      simp only [hts] at h
      cases hack : (match o.ack with
                    | some a => (normalizeAckStatus (.str a)).map some
                    | none => .ok (if isSent then some ACK_TRUE else none)) with
      | error e =>
        simp only [hack] at h
        cases h
      | ok ack =>
        simp only [hack] at h
        cases h
        show o.seq.bind safeIntOfInt = payloadSeq (.obj o)
        rw [bind_safeIntOfInt]
        rfl

theorem msgsFromPayload_seqs (isSent : Bool) (ps : List MsgPayload) :
    ∀ {rid : Nat} {lc : LegacyCounters} {rs : List MessageRecord} {rid' : Nat}
      {lc' : LegacyCounters},
    msgsFromPayload isSent ps rid lc = .ok (rs, rid', lc') →
    rs.map MessageRecord.seq = ps.map payloadSeq := by
  induction ps with
  | nil =>
    intro rid lc rs rid' lc' h
    simp only [msgsFromPayload] at h
    cases h
    rfl
  | cons p rest ih =>
    intro rid lc rs rid' lc' h
    simp only [msgsFromPayload] at h
    cases hp : MessageRecord.fromPayload p isSent rid lc with
    | error e =>
      simp only [hp] at h
      cases h
    | ok rlc =>
      obtain ⟨r, lc1⟩ := rlc
      simp only [hp] at h
      cases hrest : msgsFromPayload isSent rest (rid + 1) lc1 with
      | error e =>
        simp only [hrest] at h
        cases h
      | ok out =>
        obtain ⟨rs1, rid1, lc2⟩ := out
        simp only [hrest] at h
        cases h
        simp only [List.map_cons, ih hrest, fromPayload_seq hp]

theorem fromDict_seqs {p : ConvPayload} {rid : Nat} {lc : LegacyCounters}
    {c : Conversation} {rid' : Nat} {lc' : LegacyCounters}
    (h : Conversation.fromDict p rid lc = .ok (c, rid', lc')) :
    c.sent_messages.map MessageRecord.seq = p.sent.map payloadSeq ∧
    c.received_messages.map MessageRecord.seq = p.received.map payloadSeq := by
  simp only [Conversation.fromDict] at h
  cases hn : normalizeMac p.mac with
  | error e =>
    simp only [hn] at h
    cases h
  | ok mac =>
    simp only [hn] at h
    cases hs : msgsFromPayload true p.sent rid lc with
    | error e =>
      simp only [hs] at h
      cases h
    | ok out1 =>
      obtain ⟨sent, rid1, lc1⟩ := out1
      simp only [hs] at h
      cases hr : msgsFromPayload false p.received rid1 lc1 with
      | error e =>
        simp only [hr] at h
        cases h
      | ok out2 =>
        obtain ⟨received, rid2, lc2⟩ := out2
        simp only [hr] at h
        cases h
        exact ⟨msgsFromPayload_seqs _ _ hs, msgsFromPayload_seqs _ _ hr⟩

theorem exists_seq_iff_of_map_eq {rs : List MessageRecord} {ps : List MsgPayload}
    (hmap : rs.map MessageRecord.seq = ps.map payloadSeq) (s : Int) :
    (∃ r ∈ rs, r.seq = some s) ↔ ∃ p ∈ ps, payloadSeq p = some s := by
  constructor
  · rintro ⟨r, hr, hs⟩
    have hmem : some s ∈ ps.map payloadSeq := by
      rw [← hmap]
      exact List.mem_map.mpr ⟨r, hr, hs⟩
    obtain ⟨p, hp, hps⟩ := List.mem_map.mp hmem
    exact ⟨p, hp, hps⟩
  · rintro ⟨p, hp, hps⟩
    have hmem : some s ∈ rs.map MessageRecord.seq := by
      rw [hmap]
      exact List.mem_map.mpr ⟨p, hp, hps⟩
    obtain ⟨r, hr, hrs⟩ := List.mem_map.mp hmem
    exact ⟨r, hr, hrs⟩

theorem reloadEntries_ok_keys (entries : List ConvPayload) :
    ∀ {h h' : History}, reloadEntries h entries = (.ok (), h') → ∀ s : Int,
    (s ∈ h'.seqIndex.map Prod.fst ↔ s ∈ h.seqIndex.map Prod.fst ∨
      ∃ e ∈ entries, ∃ p ∈ e.sent ++ e.received, payloadSeq p = some s) := by
  induction entries with
  | nil =>
    intro h h' hre s
    simp only [reloadEntries] at hre
    injection hre with h1 h2
    subst h2
    simp
  | cons e rest ih =>
    intro h h' hre s
    simp only [reloadEntries] at hre
    cases hfd : Conversation.fromDict e h.nextRid h.lc with
    | error e2 =>
      simp only [hfd] at hre
      injection hre with h1 h2
      exact Except.noConfusion h1
    | ok out =>
      obtain ⟨c, rid2, lc2⟩ := out
      simp only [hfd] at hre
      cases hreg : registerConversationSequences h.seqIndex c with
      | error e2 =>
        simp only [hreg] at hre
        injection hre with h1 h2
        exact Except.noConfusion h1
      | ok idx2 =>
        simp only [hreg] at hre
        have hmap : (c.sent_messages ++ c.received_messages).map MessageRecord.seq
            = (e.sent ++ e.received).map payloadSeq := by
          rw [List.map_append, List.map_append, (fromDict_seqs hfd).1,
            (fromDict_seqs hfd).2]
        have hconv := exists_seq_iff_of_map_eq hmap s
        have hkeys := registerConversationSequences_ok_keys hreg s
        rw [ih hre s]
        constructor
        · rintro (hm | ⟨e', he', hp⟩)
          · rcases hkeys.mp hm with hm2 | hrec
            · exact Or.inl hm2
            · exact Or.inr ⟨e, List.mem_cons_self _ _, hconv.mp hrec⟩
          · exact Or.inr ⟨e', List.mem_cons_of_mem _ he', hp⟩
        · rintro (hm | ⟨e', he', hp⟩)
          · exact Or.inl (hkeys.mpr (Or.inl hm))
          · rcases List.mem_cons.mp he' with rfl | hmem
            · exact Or.inl (hkeys.mpr (Or.inr (hconv.mpr hp)))
            · exact Or.inr ⟨e', hmem, hp⟩

theorem foldl_max_le {α : Type} [LinearOrder α] (l : List α) :
    ∀ init : α, init ≤ l.foldl max init ∧ ∀ x ∈ l, x ≤ l.foldl max init := by
  induction l with
  | nil =>
    intro init
    exact ⟨le_refl _, by simp⟩
  | cons a l ih =>
    intro init
    simp only [List.foldl_cons]
    obtain ⟨h1, h2⟩ := ih (max init a)
    refine ⟨le_trans (le_max_left _ _) h1, ?_⟩
    intro x hx
    rcases List.mem_cons.mp hx with rfl | hx
    · exact le_trans (le_max_right _ _) h1
    · exact h2 x hx

theorem foldl_max_mem {α : Type} [LinearOrder α] (l : List α) :
    ∀ init : α, l.foldl max init = init ∨ l.foldl max init ∈ l := by
  induction l with
  | nil =>
    intro init
    exact Or.inl rfl
  | cons a l ih =>
    intro init
    simp only [List.foldl_cons]
    rcases ih (max init a) with h | h
    · rw [h]
      rcases max_choice init a with h2 | h2
      · exact Or.inl h2
      · rw [h2]
        exact Or.inr (List.mem_cons_self _ _)
    · exact Or.inr (List.mem_cons_of_mem _ h)

theorem maxKeys_cons (k0 : Int) (v0 : String × Nat) (rest : SeqIndex) :
    maxKeys ((k0, v0) :: rest) = (rest.map Prod.fst).foldl max k0 := rfl

theorem le_maxKeys {idx : SeqIndex} {k : Int} (hk : k ∈ idx.map Prod.fst) :
    k ≤ maxKeys idx := by
  cases idx with
  | nil => simp at hk
  | cons head rest =>
    obtain ⟨k0, v0⟩ := head
    rw [maxKeys_cons]
    simp only [List.map_cons, List.mem_cons] at hk
    rcases hk with rfl | h
    · exact (foldl_max_le (rest.map Prod.fst) k).1
    · exact (foldl_max_le (rest.map Prod.fst) k0).2 k h

theorem maxKeys_mem_or_nil (idx : SeqIndex) :
    idx = [] ∨ maxKeys idx ∈ idx.map Prod.fst := by
  cases idx with
  | nil => exact Or.inl rfl
  | cons head rest =>
    obtain ⟨k0, v0⟩ := head
    right
    rw [maxKeys_cons]
    simp only [List.map_cons, List.mem_cons]
    rcases foldl_max_mem (rest.map Prod.fst) k0 with h | h
    · exact Or.inl h
    · exact Or.inr h

/-- Claim C10: the store remaps device sequence numbers through an offset
fixed at load time — `normalize_seq(None) = None`; for an integer `r`,
`normalize_seq(r) = r + seq_offset + 1`; an absent file loads with offset 0
and an empty index; and a successful load of file content `entries` sets the
offset to the largest sequence number registered from those entries (the
maximum of the sequence-index keys, which are exactly the `seq` values
carried by the loaded payloads; 0 when there are none, in particular for an
empty file). -/
theorem normalize_seq_remaps_through_load_offset :
    (∀ h : History, h.normalizeSeq none = none) ∧
    (∀ (h : History) (r : Int), h.normalizeSeq (some r) = some (r + h.seqOffset + 1)) ∧
    (∀ h h' : History, h.file = none → h.reload = (.ok (), h') →
      h'.seqOffset = 0 ∧ h'.seqIndex = []) ∧
    (∀ (h h1 : History) (entries : List ConvPayload), h.file = some entries →
      reloadEntries ⟨[], [], [], 0, h.nextRid, ⟨0, 0⟩, some entries⟩ entries =
        (.ok (), h1) →
      h.reload = (.ok (), { h1 with seqOffset := maxKeys h1.seqIndex }) ∧
      (∀ s : Int, s ∈ h1.seqIndex.map Prod.fst ↔
        ∃ e ∈ entries, ∃ p ∈ e.sent ++ e.received, payloadSeq p = some s) ∧
      (∀ s ∈ h1.seqIndex.map Prod.fst, s ≤ maxKeys h1.seqIndex) ∧
      (entries = [] → maxKeys h1.seqIndex = 0) ∧
      (h1.seqIndex = [] → maxKeys h1.seqIndex = 0) ∧
      (h1.seqIndex ≠ [] → maxKeys h1.seqIndex ∈ h1.seqIndex.map Prod.fst)) := by
  refine ⟨fun h => rfl, fun h r => rfl, ?_, ?_⟩
  · intro h h' hfile hrel
    simp only [History.reload, hfile] at hrel
    injection hrel with h1 h2
    subst h2
    exact ⟨rfl, rfl⟩
  · intro h h1 entries hfile hre
    refine ⟨?_, ?_, ?_, ?_, ?_, ?_⟩
    · simp only [History.reload, hfile, hre]
    · intro s
      have hk := reloadEntries_ok_keys entries hre s
      simpa using hk
    · intro s hs
      exact le_maxKeys hs
    · intro he
      subst he
      simp only [reloadEntries] at hre
      injection hre with h2 h3
      rw [← h3]
      rfl
    · intro hnil
      rw [hnil]
      rfl
    · intro hnil
      rcases maxKeys_mem_or_nil h1.seqIndex with h2 | h2
      · exact absurd h2 hnil
      · exact h2

def c10Obj : MsgObj := ⟨"2025-01-01T00:00:00Z", "m", some "true", some 3⟩

def c10Entry : ConvPayload := ⟨"aa", [.obj c10Obj], [.legacy "x"]⟩

def c10Store : History := ⟨[], [], [], 0, 0, ⟨0, 0⟩, some [c10Entry]⟩

def c10RecSent : MessageRecord := ⟨0, ⟨2025, 1, 1, 0, 0, 0, 0⟩, "m", some ACK_TRUE, some 3⟩

def c10RecRecv : MessageRecord := ⟨1, ⟨1970, 1, 1, 0, 0, 0, 0⟩, "x", none, none⟩

def c10Loaded : History :=
  ⟨["AA"], [("AA", ⟨"AA", [c10RecSent], [c10RecRecv]⟩)], [(3, "AA", 0)], 0, 2,
   ⟨0, 1⟩, some [c10Entry]⟩

def c10Empty : History := ⟨["A"], [("A", ⟨"A", [], []⟩)], [(1, "A", 0)], 7, 3, ⟨2, 2⟩, none⟩

theorem normalize_seq_remaps_through_load_offset_witness :
    c10Store.normalizeSeq none = none ∧
    c10Store.normalizeSeq (some 2) = some (2 + c10Store.seqOffset + 1) ∧
    ((⟨[], [], [], 0, 3, ⟨0, 0⟩, none⟩ : History).seqOffset = 0 ∧
      (⟨[], [], [], 0, 3, ⟨0, 0⟩, none⟩ : History).seqIndex = []) ∧
    (c10Store.reload = (.ok (), { c10Loaded with seqOffset := maxKeys c10Loaded.seqIndex }) ∧
      (∀ s : Int, s ∈ c10Loaded.seqIndex.map Prod.fst ↔
        ∃ e ∈ [c10Entry], ∃ p ∈ e.sent ++ e.received, payloadSeq p = some s) ∧
      (∀ s ∈ c10Loaded.seqIndex.map Prod.fst, s ≤ maxKeys c10Loaded.seqIndex) ∧
      ([c10Entry] = ([] : List ConvPayload) → maxKeys c10Loaded.seqIndex = 0) ∧
      (c10Loaded.seqIndex = [] → maxKeys c10Loaded.seqIndex = 0) ∧
      (c10Loaded.seqIndex ≠ [] → maxKeys c10Loaded.seqIndex ∈ c10Loaded.seqIndex.map Prod.fst)) :=
  ⟨normalize_seq_remaps_through_load_offset.1 c10Store,
   normalize_seq_remaps_through_load_offset.2.1 c10Store 2,
   normalize_seq_remaps_through_load_offset.2.2.1 c10Empty
     ⟨[], [], [], 0, 3, ⟨0, 0⟩, none⟩ rfl rfl,
   normalize_seq_remaps_through_load_offset.2.2.2 c10Store c10Loaded [c10Entry]
     rfl rfl⟩

/-! ### Save-then-reload round-trip (claim C4) -/

theorem normalizeAckStatus_mem {a : String} (ha : a ∈ ACK_STATUSES) :
    normalizeAckStatus (.str a) = .ok a := by
  simp only [ACK_STATUSES, ACK_TRUE, ACK_FALSE, ACK_OUTSTANDING, List.mem_cons,
    List.not_mem_nil, or_false] at ha
  rcases ha with rfl | rfl | rfl <;> rfl

/-- Persist-then-parse round-trip for one sent record whose timestamp is
valid and whose ack status is one of the three statuses. -/
theorem fromPayload_toDict_sent (r : MessageRecord) (hv : r.timestamp.Valid)
    {a : String} (hack : r.ack_status = some a) (ha : a ∈ ACK_STATUSES)
    (rid : Nat) (lc : LegacyCounters) :
    MessageRecord.fromPayload (.obj (r.toDict true)) true rid lc =
      .ok (⟨rid, r.timestamp, r.message, some a, r.seq⟩, lc) := by
  simp only [MessageRecord.fromPayload, MessageRecord.toDict,
    parseTimestamp_format r.timestamp hv, reduceIte, hack,
    normalizeAckStatus_mem ha, Except.map, bind_safeIntOfInt]

/-- Persist-then-parse round-trip for one received record (the `ack` key is
never written for received messages, and parsing a received entry without an
`ack` key yields no ack status). -/
theorem fromPayload_toDict_recv (r : MessageRecord) (hv : r.timestamp.Valid)
    (rid : Nat) (lc : LegacyCounters) :
    MessageRecord.fromPayload (.obj (r.toDict false)) false rid lc =
      .ok (⟨rid, r.timestamp, r.message, none, r.seq⟩, lc) := by
  simp only [MessageRecord.fromPayload, MessageRecord.toDict,
    parseTimestamp_format r.timestamp hv, reduceIte, Except.map,
    bind_safeIntOfInt]
  rfl

/-- Parsing back a persisted sent-message list reproduces the dataclass
fields record for record. -/
theorem msgsFromPayload_toDict_sent (rs : List MessageRecord)
    (h : ∀ r ∈ rs, r.timestamp.Valid ∧ ∃ a, r.ack_status = some a ∧ a ∈ ACK_STATUSES) :
    ∀ (rid : Nat) (lc : LegacyCounters), ∃ rs',
    msgsFromPayload true (rs.map (fun r => .obj (r.toDict true))) rid lc =
      .ok (rs', rid + rs.length, lc) ∧
    rs'.map MessageRecord.fields = rs.map MessageRecord.fields := by
  induction rs with
  | nil =>
    intro rid lc
    exact ⟨[], rfl, rfl⟩
  | cons r rest ih =>
    intro rid lc
    obtain ⟨hv, a, hack, ha⟩ := h r (List.mem_cons_self _ _)
    obtain ⟨rs', hok, hfields⟩ :=
      ih (fun r' hr' => h r' (List.mem_cons_of_mem _ hr')) (rid + 1) lc
    refine ⟨⟨rid, r.timestamp, r.message, some a, r.seq⟩ :: rs', ?_, ?_⟩
    · simp only [List.map_cons, msgsFromPayload,
        fromPayload_toDict_sent r hv hack ha rid lc, hok, List.length_cons]
      have harith : rid + 1 + rest.length = rid + (rest.length + 1) := by omega
      rw [harith]
    · simp only [List.map_cons, hfields, List.cons.injEq, and_true]
      simp only [MessageRecord.fields, hack]

/-- Parsing back a persisted received-message list reproduces the dataclass
fields when no received record carried an ack status. -/
theorem msgsFromPayload_toDict_recv (rs : List MessageRecord)
    (h : ∀ r ∈ rs, r.timestamp.Valid ∧ r.ack_status = none) :
    ∀ (rid : Nat) (lc : LegacyCounters), ∃ rs',
    msgsFromPayload false (rs.map (fun r => .obj (r.toDict false))) rid lc =
      .ok (rs', rid + rs.length, lc) ∧
    rs'.map MessageRecord.fields = rs.map MessageRecord.fields := by
  induction rs with
  | nil =>
    intro rid lc
    exact ⟨[], rfl, rfl⟩
  | cons r rest ih =>
    intro rid lc
    obtain ⟨hv, hack⟩ := h r (List.mem_cons_self _ _)
    obtain ⟨rs', hok, hfields⟩ :=
      ih (fun r' hr' => h r' (List.mem_cons_of_mem _ hr')) (rid + 1) lc
    refine ⟨⟨rid, r.timestamp, r.message, none, r.seq⟩ :: rs', ?_, ?_⟩
    · simp only [List.map_cons, msgsFromPayload,
        fromPayload_toDict_recv r hv rid lc, hok, List.length_cons]
      have harith : rid + 1 + rest.length = rid + (rest.length + 1) := by omega
      rw [harith]
    · simp only [List.map_cons, hfields, List.cons.injEq, and_true]
      simp only [MessageRecord.fields, hack]

/-- Persist-then-parse round-trip for one conversation entry. -/
theorem fromDict_toDict (c : Conversation)
    (hmac : normalizeMac c.mac = .ok c.mac)
    (hs : ∀ r ∈ c.sent_messages, r.timestamp.Valid ∧
      ∃ a, r.ack_status = some a ∧ a ∈ ACK_STATUSES)
    (hr : ∀ r ∈ c.received_messages, r.timestamp.Valid ∧ r.ack_status = none)
    (rid : Nat) (lc : LegacyCounters) :
    ∃ c', Conversation.fromDict c.toDict rid lc =
        .ok (c', rid + (c.sent_messages.length + c.received_messages.length), lc) ∧
      c'.mac = c.mac ∧
      c'.sent_messages.map MessageRecord.fields =
        c.sent_messages.map MessageRecord.fields ∧
      c'.received_messages.map MessageRecord.fields =
        c.received_messages.map MessageRecord.fields := by
  obtain ⟨sent', hok1, hf1⟩ := msgsFromPayload_toDict_sent c.sent_messages hs rid lc
  obtain ⟨recv', hok2, hf2⟩ := msgsFromPayload_toDict_recv c.received_messages hr
    (rid + c.sent_messages.length) lc
  refine ⟨⟨c.mac, sent', recv'⟩, ?_, rfl, hf1, hf2⟩
  simp only [Conversation.fromDict, Conversation.toDict, hmac, hok1, hok2]
  have harith : rid + c.sent_messages.length + c.received_messages.length =
      rid + (c.sent_messages.length + c.received_messages.length) := by omega
  rw [harith]

theorem indexRecords_ok_of_fresh (mac : String) (rs : List MessageRecord) :
    ∀ idx : SeqIndex,
    (∀ s ∈ rs.filterMap MessageRecord.seq, s ∉ idx.map Prod.fst) →
    (rs.filterMap MessageRecord.seq).Nodup →
    ∃ idx', indexRecords mac idx rs = .ok idx' := by
  induction rs with
  | nil =>
    intro idx _ _
    exact ⟨idx, rfl⟩
  | cons r rest ih =>
    intro idx hfresh hnd
    cases hr : r.seq with
    | none =>
      have hfm : (r :: rest).filterMap MessageRecord.seq =
          rest.filterMap MessageRecord.seq := by
        simp only [List.filterMap_cons, hr]
      rw [hfm] at hfresh hnd
      obtain ⟨idx', hok⟩ := ih idx hfresh hnd
      exact ⟨idx', by simp only [indexRecords, indexSequence, hr, hok]⟩
    | some s =>
      have hsm : s ∈ (r :: rest).filterMap MessageRecord.seq :=
        List.mem_filterMap.mpr ⟨r, List.mem_cons_self _ _, hr⟩
      have hg : dictGet s idx = none := dictGet_not_mem (hfresh s hsm)
      have hfm : (r :: rest).filterMap MessageRecord.seq =
          s :: rest.filterMap MessageRecord.seq := by
        simp only [List.filterMap_cons, hr]
      rw [hfm] at hnd
      have hsnot := (List.nodup_cons.mp hnd).1
      have hnd' := (List.nodup_cons.mp hnd).2
      have hfresh' : ∀ s' ∈ rest.filterMap MessageRecord.seq,
          s' ∉ (dictSet s (mac, r.rid) idx).map Prod.fst := by
        intro s' hs' hmem
        rw [mem_keys_dictSet] at hmem
        rcases hmem with rfl | hmem
        · exact hsnot hs'
        · exact hfresh s' (by rw [hfm]; exact List.mem_cons_of_mem _ hs') hmem
      obtain ⟨idx', hok⟩ := ih (dictSet s (mac, r.rid) idx) hfresh' hnd'
      exact ⟨idx', by simp only [indexRecords, indexSequence, hr, hg, hok]⟩

theorem register_ok_of_fresh (c : Conversation) (idx : SeqIndex)
    (hfresh : ∀ s ∈ (c.sent_messages ++ c.received_messages).filterMap
      MessageRecord.seq, s ∉ idx.map Prod.fst)
    (hnd : ((c.sent_messages ++ c.received_messages).filterMap
      MessageRecord.seq).Nodup) :
    ∃ idx', registerConversationSequences idx c = .ok idx' := by
  rw [List.filterMap_append] at hfresh hnd
  rw [List.nodup_append] at hnd
  obtain ⟨hnd1, hnd2, hdisj⟩ := hnd
  obtain ⟨idx1, hok1⟩ := indexRecords_ok_of_fresh c.mac c.sent_messages idx
    (fun s hs => hfresh s (List.mem_append_left _ hs)) hnd1
  have hfresh2 : ∀ s ∈ c.received_messages.filterMap MessageRecord.seq,
      s ∉ idx1.map Prod.fst := by
    intro s hs hmem
    rcases (indexRecords_ok_keys c.mac c.sent_messages hok1 s).mp hmem with
      hmem2 | ⟨r, hrmem, hrseq⟩
    · exact hfresh s (List.mem_append_right _ hs) hmem2
    · exact hdisj (List.mem_filterMap.mpr ⟨r, hrmem, hrseq⟩) hs
  obtain ⟨idx2, hok2⟩ := indexRecords_ok_of_fresh c.mac c.received_messages idx1
    hfresh2 hnd2
  exact ⟨idx2, by simp only [registerConversationSequences, hok1, hok2]⟩

theorem filterMap_seq_eq_of_fields_eq {l1 l2 : List MessageRecord}
    (h : l1.map MessageRecord.fields = l2.map MessageRecord.fields) :
    l1.filterMap MessageRecord.seq = l2.filterMap MessageRecord.seq := by
  induction l1 generalizing l2 with
  | nil =>
    cases l2 with
    | nil => rfl
    | cons b l => simp at h
  | cons a l ih =>
    cases l2 with
    | nil => simp at h
    | cons b l2 =>
      simp only [List.map_cons, List.cons.injEq] at h
      have hseq : a.seq = b.seq := congrArg RecordFields.seq h.1
      simp only [List.filterMap_cons, hseq, ih h.2]

/-- Reloading the persisted form of a list of well-formed conversations
succeeds and reproduces contact order and per-record fields. -/
theorem reloadEntries_toDict (cs : List Conversation) :
    ∀ S : History,
    (∀ c ∈ cs, normalizeMac c.mac = .ok c.mac) →
    (∀ c ∈ cs, ∀ r ∈ c.sent_messages, r.timestamp.Valid ∧
      ∃ a, r.ack_status = some a ∧ a ∈ ACK_STATUSES) →
    (∀ c ∈ cs, ∀ r ∈ c.received_messages, r.timestamp.Valid ∧ r.ack_status = none) →
    ((cs.map Conversation.mac).Nodup) →
    (∀ c ∈ cs, ∀ s ∈ (c.sent_messages ++ c.received_messages).filterMap
      MessageRecord.seq, s ∉ S.seqIndex.map Prod.fst) →
    ((cs.flatMap (fun c => (c.sent_messages ++ c.received_messages).filterMap
      MessageRecord.seq)).Nodup) →
    ∃ h1, reloadEntries S (cs.map Conversation.toDict) = (.ok (), h1) ∧
      h1.order = S.order ++ cs.map Conversation.mac ∧
      h1.file = S.file ∧
      (∀ mac, mac ∉ cs.map Conversation.mac →
        dictGet mac h1.convs = dictGet mac S.convs) ∧
      (∀ c ∈ cs, ∃ c', dictGet c.mac h1.convs = some c' ∧ c'.mac = c.mac ∧
        c'.sent_messages.map MessageRecord.fields =
          c.sent_messages.map MessageRecord.fields ∧
        c'.received_messages.map MessageRecord.fields =
          c.received_messages.map MessageRecord.fields) := by
  induction cs with
  | nil =>
    intro S _ _ _ _ _ _
    exact ⟨S, rfl, by simp, rfl, fun mac _ => rfl, by simp⟩
  | cons c cs ih =>
    intro S hmac hsent hrecv hndmac hfresh hndseq
    obtain ⟨c', hfd, hcmac, hf1, hf2⟩ := fromDict_toDict c
      (hmac c (List.mem_cons_self _ _)) (hsent c (List.mem_cons_self _ _))
      (hrecv c (List.mem_cons_self _ _)) S.nextRid S.lc
    have hfm : (c'.sent_messages ++ c'.received_messages).filterMap
        MessageRecord.seq =
        (c.sent_messages ++ c.received_messages).filterMap MessageRecord.seq :=
      filterMap_seq_eq_of_fields_eq
        (by rw [List.map_append, List.map_append, hf1, hf2])
    rw [List.flatMap_cons, List.nodup_append] at hndseq
    obtain ⟨hndc, hndcs, hdisj⟩ := hndseq
    obtain ⟨idx2, hreg⟩ := register_ok_of_fresh c' S.seqIndex
      (by rw [hfm]; exact hfresh c (List.mem_cons_self _ _)) (by rw [hfm]; exact hndc)
    simp only [List.map_cons, List.nodup_cons] at hndmac
    obtain ⟨hcnot, hndmac'⟩ := hndmac
    have hfresh2 : ∀ c2 ∈ cs, ∀ s ∈ (c2.sent_messages ++
        c2.received_messages).filterMap MessageRecord.seq,
        s ∉ idx2.map Prod.fst := by
      intro c2 hc2 s hs hmem
      rcases (registerConversationSequences_ok_keys hreg s).mp hmem with
        hmem2 | ⟨r, hrmem, hrseq⟩
      · exact hfresh c2 (List.mem_cons_of_mem _ hc2) s hs hmem2
      · have hsc : s ∈ (c.sent_messages ++ c.received_messages).filterMap
            MessageRecord.seq := by
          rw [← hfm]
          exact List.mem_filterMap.mpr ⟨r, hrmem, hrseq⟩
        exact hdisj hsc (List.mem_flatMap.mpr ⟨c2, hc2, hs⟩)
    obtain ⟨h1, hok, horder, hfile, huntouched, hconvs⟩ :=
      ih (⟨S.order ++ [c'.mac], dictSet c'.mac c' S.convs, idx2, S.seqOffset,
            S.nextRid + (c.sent_messages.length + c.received_messages.length),
            S.lc, S.file⟩ : History)
        (fun c2 hc2 => hmac c2 (List.mem_cons_of_mem _ hc2))
        (fun c2 hc2 => hsent c2 (List.mem_cons_of_mem _ hc2))
        (fun c2 hc2 => hrecv c2 (List.mem_cons_of_mem _ hc2))
        hndmac' hfresh2 hndcs
    refine ⟨h1, ?_, ?_, ?_, ?_, ?_⟩
    · simp only [List.map_cons, reloadEntries, hfd, hreg, hok]
    · rw [horder]
      simp only [List.map_cons, hcmac, List.append_assoc, List.singleton_append]
    · rw [hfile]
    · intro mac hmac2
      simp only [List.map_cons, List.mem_cons, not_or] at hmac2
      rw [huntouched mac hmac2.2]
      exact dictGet_dictSet_ne (fun he => hmac2.1 (he.symm.trans hcmac)) _ _
    · intro c2 hc2
      rcases List.mem_cons.mp hc2 with rfl | hc2
      · refine ⟨c', ?_, hcmac, hf1, hf2⟩
        rw [huntouched c2.mac hcnot]
        show dictGet c2.mac (dictSet c'.mac c' S.convs) = some c'
        rw [hcmac]
        exact dictGet_dictSet_self _ _ _
      · exact hconvs c2 hc2

theorem filterMap_dictGet_macs (order : List String)
    (convs : List (String × Conversation))
    (h : ∀ mac ∈ order, ∃ c, dictGet mac convs = some c ∧ c.mac = mac) :
    (order.filterMap (fun mac => dictGet mac convs)).map Conversation.mac = order := by
  induction order with
  | nil => rfl
  | cons m rest ih =>
    obtain ⟨c, hc, hm⟩ := h m (List.mem_cons_self _ _)
    simp only [List.filterMap_cons, hc, List.map_cons, hm]
    rw [ih (fun mac hmac => h mac (List.mem_cons_of_mem _ hmac))]

/-- Claim C4 (amended): saving and reloading reproduces the ordered contact
list and every record's dataclass fields — timestamps round-trip losslessly
to microsecond precision, message text, ack status and sequence number are
preserved — for every store whose state satisfies the storage invariants:
contacts stored under their normalized MAC without duplicates, valid
timestamps, every sent record carrying one of the three ack statuses, no
received record carrying an ack status, and globally distinct sequence
numbers. It is NOT true for every store state: a received record carrying an
ack status (reachable through `set_ack_status_by_seq` on a received record's
sequence number) loses it, because `to_dict` omits the `ack` key for
received messages. -/
theorem save_then_reload_reproduces_store (h : History)
    (hconv : ∀ mac ∈ h.order, ∃ c, dictGet mac h.convs = some c ∧ c.mac = mac ∧
      normalizeMac mac = .ok mac ∧
      (∀ r ∈ c.sent_messages, r.timestamp.Valid ∧
        ∃ a, r.ack_status = some a ∧ a ∈ ACK_STATUSES) ∧
      (∀ r ∈ c.received_messages, r.timestamp.Valid ∧ r.ack_status = none))
    (hnd : h.order.Nodup)
    (hseq : ((h.order.filterMap (fun mac => dictGet mac h.convs)).flatMap
      (fun c => (c.sent_messages ++ c.received_messages).filterMap
        MessageRecord.seq)).Nodup) :
    ∃ h', h.save.reload = (.ok (), h') ∧
      h'.listContacts = h.listContacts ∧
      h'.snapshot = h.snapshot := by
  have hcmem : ∀ c2 ∈ h.order.filterMap (fun mac => dictGet mac h.convs),
      ∃ mac ∈ h.order, dictGet mac h.convs = some c2 ∧ c2.mac = mac := by
    intro c2 hc2
    obtain ⟨mac, hmem, hget⟩ := List.mem_filterMap.mp hc2
    obtain ⟨c, hget2, hcm, _⟩ := hconv mac hmem
    rw [hget] at hget2
    cases hget2
    exact ⟨mac, hmem, hget, hcm⟩
  have hmac' : ∀ c2 ∈ h.order.filterMap (fun mac => dictGet mac h.convs),
      normalizeMac c2.mac = .ok c2.mac := by
    intro c2 hc2
    obtain ⟨mac, hmem, hget, hcm⟩ := hcmem c2 hc2
    obtain ⟨c, hget2, _, hn, _⟩ := hconv mac hmem
    rw [hget] at hget2
    cases hget2
    rw [hcm]
    exact hn
  have hsent' : ∀ c2 ∈ h.order.filterMap (fun mac => dictGet mac h.convs),
      ∀ r ∈ c2.sent_messages, r.timestamp.Valid ∧
        ∃ a, r.ack_status = some a ∧ a ∈ ACK_STATUSES := by
    intro c2 hc2
    obtain ⟨mac, hmem, hget, _⟩ := hcmem c2 hc2
    obtain ⟨c, hget2, _, _, hs, _⟩ := hconv mac hmem
    rw [hget] at hget2
    cases hget2
    exact hs
  have hrecv' : ∀ c2 ∈ h.order.filterMap (fun mac => dictGet mac h.convs),
      ∀ r ∈ c2.received_messages, r.timestamp.Valid ∧ r.ack_status = none := by
    intro c2 hc2
    obtain ⟨mac, hmem, hget, _⟩ := hcmem c2 hc2
    obtain ⟨c, hget2, _, _, _, hr⟩ := hconv mac hmem
    rw [hget] at hget2
    cases hget2
    exact hr
  have hmapmac : (h.order.filterMap (fun mac => dictGet mac h.convs)).map
      Conversation.mac = h.order :=
    filterMap_dictGet_macs h.order h.convs
      (fun mac hm => (hconv mac hm).imp (fun c hc => ⟨hc.1, hc.2.1⟩))
  have hndmac : ((h.order.filterMap (fun mac => dictGet mac h.convs)).map
      Conversation.mac).Nodup := by
    rw [hmapmac]
    exact hnd
  have hfresh0 : ∀ c2 ∈ h.order.filterMap (fun mac => dictGet mac h.convs),
      ∀ s ∈ (c2.sent_messages ++ c2.received_messages).filterMap
        MessageRecord.seq,
      s ∉ (([] : SeqIndex).map Prod.fst) := by
    intro c2 _ s _ hmem
    exact absurd hmem (by simp)
  obtain ⟨h1, hok, horder, hfile, _, hconvs'⟩ :=
    reloadEntries_toDict (h.order.filterMap (fun mac => dictGet mac h.convs))
      ⟨[], [], [], 0, h.nextRid, ⟨0, 0⟩,
        some ((h.order.filterMap (fun mac => dictGet mac h.convs)).map
          Conversation.toDict)⟩
      hmac' hsent' hrecv' hndmac hfresh0 hseq
  have hentries : h.order.filterMap
      (fun mac => (dictGet mac h.convs).map Conversation.toDict) =
      (h.order.filterMap (fun mac => dictGet mac h.convs)).map
        Conversation.toDict :=
    (List.map_filterMap _ _ _).symm
  have h1order : h1.order = h.order := by
    rw [horder, hmapmac]
    rfl
  refine ⟨{ h1 with seqOffset := maxKeys h1.seqIndex }, ?_, ?_, ?_⟩
  · simp only [History.save, History.reload, hentries, hok]
  · show h1.order = h.order
    exact h1order
  · show h1.order.filterMap _ = h.order.filterMap _
    rw [h1order]
    apply List.filterMap_congr
    intro mac hmem
    obtain ⟨c, hget, hcm, _⟩ := hconv mac hmem
    have hc2 : c ∈ h.order.filterMap (fun mac => dictGet mac h.convs) :=
      List.mem_filterMap.mpr ⟨mac, hmem, hget⟩
    obtain ⟨c', hget', hcm', hfc1, hfc2⟩ := hconvs' c hc2
    rw [hget]
    rw [hcm] at hget'
    rw [hget']
    simp [hfc1, hfc2]

def c4Ts : DateTime := ⟨2025, 1, 1, 0, 0, 0, 0⟩

def c4Rec : MessageRecord := ⟨0, c4Ts, "m", some ACK_TRUE, some 1⟩

def c4Store : History :=
  ⟨["AA"], [("AA", ⟨"AA", [], [c4Rec]⟩)], [(1, "AA", 0)], 0, 1, ⟨0, 0⟩, none⟩

/-- Counterexample to claim C4 as stated for EVERY store state: a received
record carrying an ack status — reachable by `record_received_message` with a
sequence number followed by `set_ack_status_by_seq` on that number — does not
survive save-then-reload, because `to_dict` never writes the `ack` key for
received messages; the reload succeeds but the record's fields differ. -/
theorem save_reload_drops_received_ack :
    ∃ h', c4Store.save.reload = (.ok (), h') ∧ h'.snapshot ≠ c4Store.snapshot := by
  refine ⟨⟨["AA"], [("AA", ⟨"AA", [], [⟨1, c4Ts, "m", none, some 1⟩]⟩)],
    [(1, "AA", 1)], 1, 2, ⟨0, 0⟩,
    some [⟨"AA", [], [.obj ⟨formatTimestamp c4Ts, "m", none, some 1⟩]⟩]⟩, ?_, ?_⟩
  · rfl
  · decide

def c4GoodTs : DateTime := ⟨2025, 3, 4, 5, 6, 7, 5⟩

def c4GoodConv : Conversation :=
  ⟨"AA", [⟨0, c4Ts, "hi", some ACK_TRUE, some 2⟩],
   [⟨1, c4GoodTs, "yo", none, none⟩]⟩

def c4Good : History :=
  ⟨["AA"], [("AA", c4GoodConv)], [(2, "AA", 0)], 0, 2, ⟨0, 0⟩, none⟩

theorem save_then_reload_reproduces_store_witness :
    ∃ h', c4Good.save.reload = (.ok (), h') ∧
      h'.listContacts = c4Good.listContacts ∧
      h'.snapshot = c4Good.snapshot := by
  apply save_then_reload_reproduces_store c4Good
  · intro mac hm
    have hm2 : mac = "AA" := by simpa [c4Good] using hm
    subst hm2
    exact ⟨c4GoodConv, rfl, rfl, rfl, by decide, by decide⟩
  · decide
  · decide

end VLCChat
